import Mathlib

/-!
# Verification of the C++ Function Layout Tool (`CppParser.py`)

This file gives a shallow embedding of the Matching & Reordering Engine of
the repository (`src/CppParser.py`) and proves or refutes the frozen claims
about it.

Modelling conventions:
* Python strings are Lean `String`s; low-level rewriting works on `List Char`.
* A file's text is modelled as its `splitlines(True)` decomposition, i.e. a
  `List String` of lines (each line keeping its terminator); Python's
  `''.join` of such lines corresponds to list concatenation/flattening.
* `re.sub(r'\s*T\s*', 'T', s)` for a literal token `T` is modelled by
  `subWsF` (leftmost scan, greedy whitespace runs, replacement not
  rescanned), `re.sub(r'\bW\b', '', s)` for a word `W` by `removeWordF`
  (word-boundary semantics with the previous original character as left
  context, as in Python's `re`), and `str.strip()` by `pyStrip`.  `\s` and
  `\w` are modelled over the ASCII range, which covers every input that
  appears in the source and in the claims.
* Functions are written with an explicit fuel argument (initialised to the
  string length) so that they are structurally recursive and compute by
  kernel reduction; the fuel is always sufficient.
-/

/-- ASCII model of Python's `\s` character class. -/
def isWs (c : Char) : Bool :=
  c = ' ' || c = '\t' || c = '\n' || c = '\r' || c = '\x0b' || c = '\x0c'

/-- ASCII model of Python's `\w` character class. -/
def isWordChar (c : Char) : Bool :=
  c.isAlphanum || c = '_'

/-- Python `str.strip()`: drop leading and trailing whitespace. -/
def pyStrip (s : List Char) : List Char :=
  ((s.dropWhile isWs).reverse.dropWhile isWs).reverse

/-- `str.strip()` on `String`s. -/
def pyStripS (s : String) : String :=
  ⟨pyStrip s.data⟩

/-- One `re.sub(r'\s*T\s*', 'T', s)` pass for a literal token `tok`:
scan left to right; at a position where (whitespace run ++ `tok`) matches,
consume the leading run, the token and the greedy trailing whitespace run
and emit `tok`; otherwise emit the current character.  `fuel` bounds the
recursion and is sufficient whenever `s.length ≤ fuel`. -/
def subWsF (tok : List Char) : Nat → List Char → List Char
  | 0, s => s
  | _ + 1, [] => []
  | fuel + 1, c :: cs =>
    if tok ≠ [] ∧ tok.isPrefixOf ((c :: cs).dropWhile isWs) then
      tok ++ subWsF tok fuel
        ((((c :: cs).dropWhile isWs).drop tok.length).dropWhile isWs)
    else
      c :: subWsF tok fuel cs

/-- `re.sub(r'\s*T\s*', 'T', s)` with the canonical fuel. -/
def subWs (tok : List Char) (s : List Char) : List Char :=
  subWsF tok s.length s

/-- Left word-boundary test: the previous original character (if any) is not
a word character. -/
def boundaryL (prev : Option Char) : Bool :=
  prev.all fun p => ¬ isWordChar p

/-- Right word-boundary test: the next character (if any) is not a word
character. -/
def boundaryR : List Char → Bool
  | [] => true
  | c :: _ => ¬ isWordChar c

/-- One `re.sub(r'\bW\b', '', s)` pass for the word `w` (all of whose
characters are word characters): scan left to right with the previous
original character as left context; remove every boundary-delimited
occurrence of `w`.  `fuel` is sufficient whenever `s.length ≤ fuel`. -/
def removeWordF (w : List Char) : Nat → Option Char → List Char → List Char
  | 0, _, s => s
  | _ + 1, _, [] => []
  | fuel + 1, prev, c :: cs =>
    if w ≠ [] ∧ boundaryL prev ∧ w.isPrefixOf (c :: cs) ∧
        boundaryR ((c :: cs).drop w.length) then
      removeWordF w fuel (some (w.getLastD ' ')) ((c :: cs).drop w.length)
    else
      c :: removeWordF w fuel (some c) cs

/-- `re.sub(r'\bW\b', '', s)` with the canonical fuel and start-of-string
left context. -/
def removeWord (w : List Char) (s : List Char) : List Char :=
  removeWordF w s.length none s

/-- `ClangCppParser._normalize_signature`: collapse whitespace around `::`,
`(`, `)` and `,`, strip `const` and `volatile` as standalone tokens, then
`strip()` — the six `re.sub` calls and the final `strip` in source order. -/
def normalizeSignature (s : String) : String :=
  let l1 := subWs "::".data s.data
  let l2 := subWs "(".data l1
  let l3 := subWs ")".data l2
  let l4 := subWs ",".data l3
  let l5 := removeWord "const".data l4
  let l6 := removeWord "volatile".data l5
  ⟨pyStrip l6⟩

example : normalizeSignature "void f(const int x)" = "void f( int x)" := by decide
example : normalizeSignature "void f(int)" = "void f(int)" := by decide
example : normalizeSignature "int g ( std::string s = \"x\" )"
    = "int g(std::string s = \"x\")" := by decide
example : normalizeSignature "void f( int )" = "void f(int)" := by decide

example : normalizeSignature "f( const x)" = "f( x)" := by decide
example : normalizeSignature "f( x)" = "f(x)" := by decide

/-- `ClangCppParser._extract_parameters`: `re.search(r'\((.*)\)', sig)` —
the text between the first `(` and the last following `)` (greedy `.*`);
empty string when there is no match.  (`.` does not cross newlines in
Python; every signature handled here is a single line.) -/
def extractParameters (s : String) : String :=
  let afterParen := (s.data.dropWhile (fun c => c ≠ '(')).drop 1
  let revAfter := afterParen.reverse.dropWhile (fun c => c ≠ ')')
  if revAfter.isEmpty then "" else ⟨(revAfter.drop 1).reverse⟩

example : extractParameters "void C::f(int x)" = "int x" := by decide
example : extractParameters "void f()" = "" := by decide
example : extractParameters "void f" = "" := by decide

/-- The `re.sub(r'\s+\w+$', '', t)` step of
`ClangCppParser._are_equivalent_types`: remove a trailing
whitespace-run-plus-word-run suffix when both runs are nonempty. -/
def stripTrailingName (t : List Char) : List Char :=
  let rev := t.reverse
  let w := rev.takeWhile isWordChar
  let rest := rev.drop w.length
  let ws := rest.takeWhile isWs
  if ¬ w.isEmpty ∧ ¬ ws.isEmpty then (rest.drop ws.length).reverse else t

example : stripTrailingName "int x".data = "int".data := by decide
example : stripTrailingName "int".data = "int".data := by decide
example : stripTrailingName "int *x".data = "int *x".data := by decide

/-- `ClangCppParser._are_equivalent_types`: strip `const`, `volatile` and a
trailing parameter name (each followed by `strip()`), then compare. -/
def areEquivalentTypes (type1 type2 : String) : Bool :=
  let t1 := pyStrip (removeWord "const".data type1.data)
  let t2 := pyStrip (removeWord "const".data type2.data)
  let t1 := pyStrip (removeWord "volatile".data t1)
  let t2 := pyStrip (removeWord "volatile".data t2)
  let t1 := pyStrip (stripTrailingName t1)
  let t2 := pyStrip (stripTrailingName t2)
  t1 = t2

/-- Python `str.split(',')`: split on every comma (`"".split(',') = [""]`). -/
def splitOnComma : List Char → List (List Char)
  | [] => [[]]
  | c :: cs =>
    if c = ',' then [] :: splitOnComma cs
    else
      match splitOnComma cs with
      | [] => [[c]]
      | h :: t => (c :: h) :: t

/-- `ClangCppParser._compare_parameter_lists`: equal length and pairwise
equivalent types after splitting on every `,` (Python truthiness: the empty
parameter string yields the empty list). -/
def compareParameterLists (params1 params2 : String) : Bool :=
  if params1 = "" ∧ params2 = "" then true
  else
    let l1 := if params1 ≠ "" then (splitOnComma params1.data).map (⟨·⟩) else []
    let l2 := if params2 ≠ "" then (splitOnComma params2.data).map (⟨·⟩) else []
    l1.length = l2.length &&
      (l1.zip l2).all fun p => areEquivalentTypes (pyStripS p.1) (pyStripS p.2)

example : compareParameterLists "int" "int x" = true := by decide
example : compareParameterLists "int" "long" = false := by decide

/-- `FunctionDefinition` from the source: metadata attached to a declaration
or definition.  `full_text` is the list of lines of the function's text (the
`splitlines(True)` view of the Python string); `nspace` is the source's
`namespace` attribute. -/
structure PyFunc where
  name : String
  signature : String
  line_start : Nat
  line_end : Nat
  full_text : List String
  access_specifier : Option String
  class_name : Option String
  nspace : Option String
  is_static : Bool
deriving DecidableEq, Repr

/-- `ClangCppParser._find_matching_header_function`: iterate over the header
table (a Python dict modelled as an association list in insertion order);
for each entry first try exact equality of normalised signatures, then the
name-plus-parameter fallback; first hit wins. -/
def findMatchingHeaderFunction (cppSignature cppName : String) :
    List (String × PyFunc) → Option String
  | [] => none
  | (headerSig, headerFunc) :: rest =>
    if normalizeSignature cppSignature = normalizeSignature headerSig then
      some headerSig
    else if headerFunc.name = cppName &&
        compareParameterLists (extractParameters cppSignature)
          (extractParameters headerSig) then
      some headerSig
    else
      findMatchingHeaderFunction cppSignature cppName rest

/-- The per-entry success condition of `_find_matching_header_function`:
exact normalised-signature equality, or simple-name equality together with
positionally equivalent parameter lists. -/
def entryHit (cppSignature cppName headerSig : String) (headerFunc : PyFunc) : Bool :=
  normalizeSignature cppSignature = normalizeSignature headerSig ||
    (headerFunc.name = cppName &&
      compareParameterLists (extractParameters cppSignature)
        (extractParameters headerSig))

/-- A `LayoutRule`'s criteria dictionary: each field is `some v` when the
key is present in the configured criteria.  A `name_pattern` regex is
embedded as its matching predicate (`re.search` semantics). -/
structure Criteria where
  access : Option String := none
  is_static : Option Bool := none
  class_name : Option String := none
  nspace : Option String := none
  name_pattern : Option (String → Bool) := none

/-- `LayoutRule`: a priority (lower = earlier) and a criteria dictionary. -/
structure LayoutRule where
  priority : Int
  criteria : Criteria

/-- `LayoutRule.matches`: conjunction of all present criteria, each compared
against the corresponding `FunctionDefinition` attribute exactly as the
`getattr` checks in the source do. -/
def LayoutRule.matches (r : LayoutRule) (f : PyFunc) : Bool :=
  (r.criteria.access.all fun v => f.access_specifier = some v) &&
  (r.criteria.is_static.all fun v => f.is_static = v) &&
  (r.criteria.class_name.all fun v => f.class_name = some v) &&
  (r.criteria.nspace.all fun v => f.nspace = some v) &&
  (r.criteria.name_pattern.all fun p => p f.name)

/-- Contiguous-substring containment (the effect of `re.search` on a
literal alternative). -/
def hasSubstring (needle : List Char) : List Char → Bool
  | [] => needle.isEmpty
  | c :: cs => needle.isPrefixOf (c :: cs) || hasSubstring needle cs

/-- The default rules' `name_pattern` regex
`(^~?\w+$|constructor|destructor)` under `re.search`: either the whole name
is an identifier optionally preceded by `~` (the anchored alternative), or
the name contains `constructor` or `destructor` as a substring. -/
def defaultNamePattern (n : String) : Bool :=
  (match n.data with
   | '~' :: rest => ¬ rest.isEmpty && rest.all isWordChar
   | l => ¬ l.isEmpty && l.all isWordChar) ||
  hasSubstring "constructor".data n.data ||
  hasSubstring "destructor".data n.data

/-- The built-in default rule list of `ClangCppParser._load_layout_rules`. -/
def defaultRules : List LayoutRule :=
  [ ⟨10, { access := some "public" }⟩,
    ⟨20, { access := some "protected" }⟩,
    ⟨30, { access := some "private" }⟩,
    ⟨5, { is_static := some true }⟩,
    ⟨3, { name_pattern := some defaultNamePattern }⟩ ]

/-- The priority computation inside `reorder_functions.sort_key`: start at
`1000` and take the minimum over all matching rules. -/
def priorityOf (rules : List LayoutRule) (f : PyFunc) : Int :=
  rules.foldl (fun p r => if r.matches f then min p r.priority else p) 1000

/-- `header_order.get(signature, float('inf'))`: `none` models `inf`. -/
def ordLe : Option Nat → Option Nat → Bool
  | _, none => true
  | none, some _ => false
  | some a, some b => a ≤ b

/-- Strict version of `ordLe`. -/
def ordLt : Option Nat → Option Nat → Bool
  | none, _ => false
  | some _, none => true
  | some a, some b => a < b

/-- The tuple `(priority, order)` computed by `sort_key`. -/
def sortKey (rules : List LayoutRule) (order : String → Option Nat)
    (f : PyFunc) : Int × Option Nat :=
  (priorityOf rules f, order f.signature)

/-- Python's ascending tuple comparison on `(priority, order)` keys. -/
def keyLe (a b : Int × Option Nat) : Bool :=
  a.1 < b.1 || (a.1 = b.1 && ordLe a.2 b.2)

/-- Strict lexicographic order on keys. -/
def keyLt (a b : Int × Option Nat) : Bool :=
  a.1 < b.1 || (a.1 = b.1 && ordLt a.2 b.2)

/-- `sorted(source_functions, key=sort_key)`: Python's stable ascending sort,
modelled by the stable `List.mergeSort`. -/
def sortedFunctions (rules : List LayoutRule) (order : String → Option Nat)
    (funcs : List PyFunc) : List PyFunc :=
  funcs.mergeSort fun a b => keyLe (sortKey rules order a) (sortKey rules order b)

/-- A declaration record as extracted from a header translation unit: the
inputs `parse_header_file` derives from each non-definition function cursor
(signature from `get_function_signature`, name from `cursor.spelling`, and
the metadata getters). -/
structure DeclRec where
  signature : String
  name : String
  line_start : Nat
  line_end : Nat
  access_specifier : Option String
  class_name : Option String
  nspace : Option String
  is_static : Bool
deriving DecidableEq, Repr

/-- The `FunctionDefinition` that `parse_header_file` builds from a header
declaration (its `full_text` is the empty string). -/
def mkHeaderFunc (d : DeclRec) : PyFunc :=
  { name := d.name, signature := d.signature, line_start := d.line_start,
    line_end := d.line_end, full_text := [],
    access_specifier := d.access_specifier, class_name := d.class_name,
    nspace := d.nspace, is_static := d.is_static }

/-- Python dict assignment `d[k] = v` on an insertion-ordered association
list: update in place if the key exists, else append at the end. -/
def dictInsert {α : Type} (k : String) (v : α) :
    List (String × α) → List (String × α)
  | [] => [(k, v)]
  | (k', v') :: rest =>
    if k' = k then (k', v) :: rest else (k', v') :: dictInsert k v rest

/-- Dict lookup `d[k]` / `d.get(k)`. -/
def dictGet {α : Type} (k : String) : List (String × α) → Option α
  | [] => none
  | (k', v) :: rest => if k' = k then some v else dictGet k rest

/-- The table-building loop of `ClangCppParser.parse_header_file`: for each
declaration record, `functions[signature] = func_def` and
`function_order[signature] = index`, with `index` incremented once per
record.  There is no failure path: the function is total. -/
def parseHeaderAux : List DeclRec → List (String × PyFunc) →
    List (String × Nat) → Nat → List (String × PyFunc) × List (String × Nat)
  | [], functions, function_order, _ => (functions, function_order)
  | d :: ds, functions, function_order, index =>
    parseHeaderAux ds (dictInsert d.signature (mkHeaderFunc d) functions)
      (dictInsert d.signature index function_order) (index + 1)

/-- `ClangCppParser.parse_header_file`, restricted to its pure core: the
extractor (libclang) is the external collaborator producing the declaration
records; the loop builds the `functions` and `function_order` dicts. -/
def parse_header_file (decls : List DeclRec) :
    List (String × PyFunc) × List (String × Nat) :=
  parseHeaderAux decls [] [] 0

/-- A definition cursor as extracted from the implementation translation
unit: name, signature and the 1-based extent lines reported by libclang. -/
structure Cursor where
  name : String
  signature : String
  startLine : Nat
  endLine : Nat
deriving DecidableEq, Repr

/-- The comment/blank test of the span-extension loop in
`parse_source_file`: the stripped line starts with `//` or `/*` or is
empty. -/
def commentish (l : String) : Bool :=
  "//".data.isPrefixOf (pyStripS l).data ||
    "/*".data.isPrefixOf (pyStripS l).data ||
    pyStripS l = ""

/-- The backward span-extension loop of `parse_source_file`: starting just
above `start_line`, walk upward over comment-or-blank lines; the result is
the final `comment_start`. -/
def extendCommentStart (lines : List String) : Nat → Nat
  | 0 => 0
  | s + 1 =>
    if commentish (lines.getD s "") then extendCommentStart lines s
    else s + 1

/-- The record `parse_source_file` builds for one matched definition cursor:
0-based lines (libclang's minus one, with the source's range check), span
extended backward over leading comments/blanks, `full_text` the verbatim
slice `source_lines[comment_start:end_line+1]`, and the header declaration's
metadata attached. -/
def mkSourceRecord (lines : List String) (headerFunc : PyFunc)
    (headerSig : String) (c : Cursor) : Option PyFunc :=
  let start_line : Int := (c.startLine : Int) - 1
  let end_line : Int := (c.endLine : Int) - 1
  if start_line < 0 ∨ (lines.length : Int) ≤ end_line then none
  else
    let s := start_line.toNat
    let e := end_line.toNat
    let comment_start := extendCommentStart lines s
    some { name := c.name, signature := headerSig,
           line_start := comment_start, line_end := e,
           full_text := (lines.drop comment_start).take (e + 1 - comment_start),
           access_specifier := headerFunc.access_specifier,
           class_name := headerFunc.class_name,
           nspace := headerFunc.nspace, is_static := headerFunc.is_static }

/-- The cursor loop of `ClangCppParser.parse_source_file`: for each
definition cursor, find its header declaration; unmatched cursors are
skipped (`if not header_sig: continue`), as are cursors whose lines fall
outside the file. -/
def parse_source_file (lines : List String)
    (header_functions : List (String × PyFunc)) : List Cursor → List PyFunc
  | [] => []
  | c :: cs =>
    match findMatchingHeaderFunction c.signature c.name header_functions with
    | none => parse_source_file lines header_functions cs
    | some headerSig =>
      match dictGet headerSig header_functions with
      | none => parse_source_file lines header_functions cs
      | some headerFunc =>
        match mkSourceRecord lines headerFunc headerSig c with
        | none => parse_source_file lines header_functions cs
        | some rec_ => rec_ :: parse_source_file lines header_functions cs

/-- Membership in `function_blocks`: the set of all line indices covered by
some function's `[line_start, line_end]` span. -/
def inBlocks (funcs : List PyFunc) (i : Nat) : Bool :=
  funcs.any fun f => f.line_start ≤ i && i ≤ f.line_end

/-- The first component of a non-function block tuple: the in-loop flushes
store `current_block[0]` (a line string), the trailing flush stores an
integer index.  Python's `==` between a string and `0` is `False`. -/
inductive BTag where
  | ofStr (s : String)
  | ofNat (n : Nat)
deriving DecidableEq, Repr

/-- `tag == 0` in Python: true only for the integer tag `0`. -/
def BTag.eqZero : BTag → Bool
  | .ofNat 0 => true
  | _ => false

/-- A non-function block: its tuple tag and its lines (the source also
stores the last line / end index, which it never reads; omitted here). -/
structure GapBlock where
  tag : BTag
  text : List String
deriving DecidableEq, Repr

/-- The gap-collection loop of `reorder_functions`: walk the lines with the
running index `i`, accumulate non-function lines in `current_block`, flush
with a string tag when a function line is hit, and flush the trailing block
with the integer tag `len(source_lines) - len(current_block)` (which equals
`i - acc.length` at the end of the walk). -/
def gapBlocksAux (inB : Nat → Bool) : Nat → List String → List String →
    List GapBlock
  | i, acc, [] =>
    if acc.isEmpty then [] else [⟨.ofNat (i - acc.length), acc⟩]
  | i, acc, l :: ls =>
    if inB i then
      if acc.isEmpty then gapBlocksAux inB (i + 1) [] ls
      else ⟨.ofStr (acc.headD ""), acc⟩ :: gapBlocksAux inB (i + 1) [] ls
    else gapBlocksAux inB (i + 1) (acc ++ [l]) ls

/-- All non-function blocks of a file. -/
def gapBlocks (funcs : List PyFunc) (lines : List String) : List GapBlock :=
  gapBlocksAux (inBlocks funcs) 0 [] lines

/-- `ClangCppParser.reorder_functions` on the line-list view of the file:
sort the matched definitions by `(priority, header order)`, emit the first
non-function block first if its tag `== 0` (note the tags of all in-loop
blocks are strings, for which Python's `== 0` is `False`), then all sorted
function texts, then the remaining non-function blocks. -/
def reorder_functions (rules : List LayoutRule) (order : String → Option Nat)
    (lines : List String) (funcs : List PyFunc) : List String :=
  let sortedF := sortedFunctions rules order funcs
  let gaps := gapBlocks funcs lines
  let pair :=
    match gaps with
    | [] => ([], [])
    | g :: gs => if g.tag.eqZero then (g.text, gs) else ([], g :: gs)
  pair.1 ++ (sortedF.map (·.full_text)).flatten ++
    (pair.2.map (·.text)).flatten

/-! ## List machinery for the reconstruction proofs -/

/-- The sublist of `ls` (whose head carries index `i`) consisting of the
elements whose index satisfies `p`. -/
def selectIdx {α : Type} (p : Nat → Bool) : Nat → List α → List α
  | _, [] => []
  | i, l :: ls =>
    if p i then l :: selectIdx p (i + 1) ls else selectIdx p (i + 1) ls

theorem selectIdx_append {α : Type} (p : Nat → Bool) (xs : List α) :
    ∀ (i : Nat) (ys : List α),
    selectIdx p i (xs ++ ys) = selectIdx p i xs ++ selectIdx p (i + xs.length) ys := by
  induction xs with
  | nil => intro i ys; simp [selectIdx]
  | cons x xs ih =>
    intro i ys
    have harith : i + 1 + xs.length = i + (xs.length + 1) := by omega
    simp only [List.cons_append, selectIdx, List.length_cons]
    by_cases h : p i <;> simp [h, ih (i + 1) ys, harith]

theorem selectIdx_eq_nil {α : Type} (p : Nat → Bool) (xs : List α) :
    ∀ i : Nat, (∀ j, j < xs.length → p (i + j) = false) →
    selectIdx p i xs = [] := by
  induction xs with
  | nil => intro i _; rfl
  | cons x xs ih =>
    intro i h
    have h0 : p i = false := by have := h 0 (by simp); simpa using this
    simp only [selectIdx, h0, if_neg Bool.false_ne_true]
    exact ih (i + 1) fun j hj => by
      have := h (j + 1) (by simpa using Nat.succ_lt_succ hj)
      simpa [Nat.add_assoc, Nat.add_comm 1 j] using this

theorem selectIdx_eq_self {α : Type} (p : Nat → Bool) (xs : List α) :
    ∀ i : Nat, (∀ j, j < xs.length → p (i + j) = true) →
    selectIdx p i xs = xs := by
  induction xs with
  | nil => intro i _; rfl
  | cons x xs ih =>
    intro i h
    have h0 : p i = true := by have := h 0 (by simp); simpa using this
    have hrest : selectIdx p (i + 1) xs = xs := ih (i + 1) fun j hj => by
      have := h (j + 1) (by simpa using Nat.succ_lt_succ hj)
      simpa [Nat.add_assoc, Nat.add_comm 1 j] using this
    simp [selectIdx, h0, hrest]

theorem selectIdx_congr {α : Type} (p q : Nat → Bool) (xs : List α) :
    ∀ i : Nat, (∀ j, i ≤ j → p j = q j) →
    selectIdx p i xs = selectIdx q i xs := by
  induction xs with
  | nil => intro i _; rfl
  | cons x xs ih =>
    intro i h
    simp only [selectIdx, h i le_rfl, ih (i + 1) fun j hj => h j (by omega)]

theorem perm_selectIdx_partition {α : Type} (p : Nat → Bool) (xs : List α) :
    ∀ i : Nat,
    xs.Perm (selectIdx p i xs ++ selectIdx (fun j => ! p j) i xs) := by
  induction xs with
  | nil => intro i; simp [selectIdx]
  | cons x xs ih =>
    intro i
    by_cases h : p i
    · simpa [selectIdx, h] using (ih (i + 1)).cons x
    · simp only [selectIdx, h, if_neg, Bool.not_false, if_pos rfl,
        Bool.false_eq_true, not_false_eq_true]
      exact ((ih (i + 1)).cons x).trans List.perm_middle.symm

theorem perm_any {α : Type} (p : α → Bool) {l₁ l₂ : List α} (h : l₁.Perm l₂) :
    l₁.any p = l₂.any p := by
  cases hb : l₂.any p with
  | false =>
    rw [List.any_eq_false] at hb ⊢
    exact fun x hx => hb x (h.mem_iff.mp hx)
  | true =>
    rw [List.any_eq_true] at hb ⊢
    obtain ⟨x, hx, hp⟩ := hb
    exact ⟨x, h.mem_iff.mpr hx, hp⟩

theorem mem_flatten_split {α : Type} (x : List α) :
    ∀ L : List (List α), x ∈ L → ∃ a b, L.flatten = a ++ x ++ b := by
  intro L
  induction L with
  | nil => intro h; cases h
  | cons y L ih =>
    intro h
    rcases List.mem_cons.mp h with rfl | h
    · exact ⟨[], L.flatten, by simp⟩
    · obtain ⟨a, b, hab⟩ := ih h
      exact ⟨y ++ a, b, by simp [hab]⟩

theorem gapBlocksAux_flatten (inB : Nat → Bool) :
    ∀ (ls : List String) (i : Nat) (acc : List String),
    ((gapBlocksAux inB i acc ls).map (·.text)).flatten =
      acc ++ selectIdx (fun j => ! inB j) i ls := by
  intro ls
  induction ls with
  | nil =>
    intro i acc
    by_cases h : acc.isEmpty
    · simp [gapBlocksAux, h, selectIdx, List.isEmpty_iff.mp h]
    · simp [gapBlocksAux, h, selectIdx]
  | cons l ls ih =>
    intro i acc
    by_cases hb : inB i
    · by_cases h : acc.isEmpty
      · simp [gapBlocksAux, hb, h, selectIdx, ih (i + 1) [],
          List.isEmpty_iff.mp h]
      · simp [gapBlocksAux, hb, h, selectIdx, ih (i + 1) []]
    · simp [gapBlocksAux, hb, selectIdx, ih (i + 1) (acc ++ [l])]

/-- Disjointness of two function spans. -/
def SpanDisjoint (f g : PyFunc) : Prop :=
  f.line_end < g.line_start ∨ g.line_end < f.line_start

/-- The span of `f` is well-formed inside `lines` and `full_text` is the
verbatim slice `lines[line_start : line_end + 1]` — exactly the record
`parse_source_file` constructs. -/
def SpannedBy (lines : List String) (f : PyFunc) : Prop :=
  f.line_start ≤ f.line_end ∧ f.line_end < lines.length ∧
  f.full_text = (lines.drop f.line_start).take (f.line_end + 1 - f.line_start)

theorem inBlocks_eq_false (funcs : List PyFunc) (k : Nat)
    (h : ∀ f ∈ funcs, k < f.line_start ∨ f.line_end < k) :
    inBlocks funcs k = false := by
  rw [inBlocks, List.any_eq_false]
  intro f hf
  have hd := h f hf
  simp only [Bool.and_eq_true, decide_eq_true_eq, not_and]
  omega

theorem inBlocks_eq_true_head (f : PyFunc) (rest : List PyFunc) (k : Nat)
    (h1 : f.line_start ≤ k) (h2 : k ≤ f.line_end) :
    inBlocks (f :: rest) k = true := by
  rw [inBlocks, List.any_eq_true]
  refine ⟨f, List.mem_cons_self _ _, ?_⟩
  simp only [Bool.and_eq_true, decide_eq_true_eq]
  exact ⟨h1, h2⟩

theorem inBlocks_cons_high (f : PyFunc) (rest : List PyFunc) (k : Nat)
    (h : f.line_end < k) : inBlocks (f :: rest) k = inBlocks rest k := by
  simp only [inBlocks, List.any_cons]
  have h2 : ¬ (k ≤ f.line_end) := by omega
  simp [h2]

theorem chain_end_lt_start :
    ∀ (funcs : List PyFunc) (f : PyFunc),
    List.Chain' (fun a b => a.line_end < b.line_start) (f :: funcs) →
    (∀ g ∈ funcs, g.line_start ≤ g.line_end) →
    ∀ g ∈ funcs, f.line_end < g.line_start := by
  intro funcs
  induction funcs with
  | nil => intro f _ _ g hg; cases hg
  | cons a rest ih =>
    intro f hchain hse g hg
    have h1 : f.line_end < a.line_start := (List.chain'_cons.mp hchain).1
    rcases List.mem_cons.mp hg with rfl | hg'
    · exact h1
    · have h2 := ih a (List.chain'_cons.mp hchain).2
        (fun g hg => hse g (List.mem_cons_of_mem _ hg)) g hg'
      have h3 : a.line_start ≤ a.line_end := hse a (List.mem_cons_self _ _)
      omega

theorem selectIdx_inBlocks_eq :
    ∀ (funcs : List PyFunc) (lines : List String) (i : Nat),
    List.Chain' (fun a b => a.line_end < b.line_start) funcs →
    (∀ f ∈ funcs, i ≤ f.line_start ∧ f.line_start ≤ f.line_end ∧
      f.line_end < i + lines.length ∧
      f.full_text =
        (lines.drop (f.line_start - i)).take (f.line_end + 1 - f.line_start)) →
    selectIdx (inBlocks funcs) i lines = (funcs.map (·.full_text)).flatten := by
  intro funcs
  induction funcs with
  | nil =>
    intro lines i _ _
    simpa using selectIdx_eq_nil (inBlocks []) lines i fun j _ => rfl
  | cons f rest ih =>
    intro lines i hchain hcond
    obtain ⟨his, hse, hlt, htext⟩ := hcond f (List.mem_cons_self _ _)
    have hrest_se : ∀ g ∈ rest, g.line_start ≤ g.line_end :=
      fun g hg => (hcond g (List.mem_cons_of_mem _ hg)).2.1
    have hgt := chain_end_lt_start rest f hchain hrest_se
    have hdropdrop :
        ((lines.drop (f.line_start - i)).drop (f.line_end + 1 - f.line_start)) =
          lines.drop (f.line_end + 1 - i) := by
      rw [List.drop_drop]; congr 1; omega
    have hlines : lines = lines.take (f.line_start - i) ++
        ((lines.drop (f.line_start - i)).take (f.line_end + 1 - f.line_start) ++
          lines.drop (f.line_end + 1 - i)) := by
      rw [← hdropdrop, List.take_append_drop, List.take_append_drop]
    have hlenA : (lines.take (f.line_start - i)).length = f.line_start - i := by
      rw [List.length_take, Nat.min_eq_left (by omega)]
    have hlenB :
        ((lines.drop (f.line_start - i)).take
          (f.line_end + 1 - f.line_start)).length =
          f.line_end + 1 - f.line_start := by
      rw [List.length_take, List.length_drop, Nat.min_eq_left (by omega)]
    have hselA :
        selectIdx (inBlocks (f :: rest)) i (lines.take (f.line_start - i)) = [] := by
      apply selectIdx_eq_nil
      intro j hj
      rw [hlenA] at hj
      apply inBlocks_eq_false
      intro g hg
      rcases List.mem_cons.mp hg with rfl | hg'
      · left; omega
      · left; have := hgt g hg'; omega
    have hselB :
        selectIdx (inBlocks (f :: rest)) (f.line_start)
          ((lines.drop (f.line_start - i)).take
            (f.line_end + 1 - f.line_start)) =
          (lines.drop (f.line_start - i)).take
            (f.line_end + 1 - f.line_start) := by
      apply selectIdx_eq_self
      intro j hj
      rw [hlenB] at hj
      exact inBlocks_eq_true_head f rest _ (by omega) (by omega)
    have hselC :
        selectIdx (inBlocks (f :: rest)) (f.line_end + 1)
          (lines.drop (f.line_end + 1 - i)) =
          selectIdx (inBlocks rest) (f.line_end + 1)
            (lines.drop (f.line_end + 1 - i)) := by
      apply selectIdx_congr
      intro j hj
      exact inBlocks_cons_high f rest j (by omega)
    have hih :
        selectIdx (inBlocks rest) (f.line_end + 1)
          (lines.drop (f.line_end + 1 - i)) = (rest.map (·.full_text)).flatten := by
      apply ih _ _ (List.Chain'.tail hchain)
      intro g hg
      obtain ⟨h1, h2, h3, h4⟩ := hcond g (List.mem_cons_of_mem _ hg)
      have h5 := hgt g hg
      refine ⟨by omega, h2, ?_, ?_⟩
      · rw [List.length_drop]; omega
      · rw [List.drop_drop, h4]
        congr 2
        omega
    conv_lhs => rw [hlines]
    rw [selectIdx_append, selectIdx_append, hselA, hlenA]
    have hidx1 : i + (f.line_start - i) = f.line_start := by omega
    rw [hidx1, hselB, hlenB]
    have hidx2 : f.line_start + (f.line_end + 1 - f.line_start) = f.line_end + 1 := by
      omega
    rw [hidx2, hselC, hih, ← htext]
    simp

/-- Non-blank content line: `line.strip()` is nonempty. -/
def isContentLine (l : String) : Bool :=
  ! (pyStripS l == "")

theorem reorder_functions_perm (rules : List LayoutRule)
    (order : String → Option Nat) (lines : List String) (funcs : List PyFunc)
    (hdisj : funcs.Pairwise SpanDisjoint)
    (hspan : ∀ f ∈ funcs, SpannedBy lines f) :
    (reorder_functions rules order lines funcs).Perm lines := by
  have hperm : (funcs.mergeSort fun a b => a.line_start ≤ b.line_start).Perm funcs :=
    List.mergeSort_perm funcs _
  set sorted := funcs.mergeSort fun a b => a.line_start ≤ b.line_start with hsorted
  have hsortle : sorted.Pairwise fun a b => a.line_start ≤ b.line_start := by
    have h := @List.sorted_mergeSort PyFunc
      (fun a b : PyFunc => decide (a.line_start ≤ b.line_start))
      (fun a b c hab hbc => by
        simp only [decide_eq_true_eq] at *; omega)
      (fun a b => by
        simp only [Bool.or_eq_true, decide_eq_true_eq]; omega)
      funcs
    exact h.imp fun hab => by simpa using hab
  have hdisj' : sorted.Pairwise SpanDisjoint :=
    (hperm.pairwise_iff fun hab => hab.symm).mpr hdisj
  have hpair : sorted.Pairwise fun a b => a.line_end < b.line_start := by
    refine List.Pairwise.imp_of_mem ?_ (hsortle.and hdisj')
    intro a b ha hb hab
    have hsa := (hspan a (hperm.mem_iff.mp ha)).1
    have hsb := (hspan b (hperm.mem_iff.mp hb)).1
    rcases hab.2 with h | h
    · exact h
    · omega
  have hsel : selectIdx (inBlocks sorted) 0 lines =
      (sorted.map (·.full_text)).flatten := by
    apply selectIdx_inBlocks_eq _ _ _ hpair.chain'
    intro g hg
    obtain ⟨h1, h2, h3⟩ := hspan g (hperm.mem_iff.mp hg)
    exact ⟨Nat.zero_le _, h1, by omega, by simpa using h3⟩
  have hinb : ∀ j, inBlocks sorted j = inBlocks funcs j := fun j =>
    perm_any _ hperm
  have hselF : selectIdx (inBlocks funcs) 0 lines =
      (sorted.map (·.full_text)).flatten := by
    rw [selectIdx_congr (inBlocks funcs) (inBlocks sorted) lines 0
      fun j _ => (hinb j).symm]
    exact hsel
  have hgap : ((gapBlocks funcs lines).map (·.text)).flatten =
      selectIdx (fun j => ! inBlocks funcs j) 0 lines := by
    simpa using gapBlocksAux_flatten (inBlocks funcs) lines 0 []
  have hpart := perm_selectIdx_partition (inBlocks funcs) lines 0
  have hF : ((sortedFunctions rules order funcs).map (·.full_text)).flatten.Perm
      (selectIdx (inBlocks funcs) 0 lines) := by
    rw [hselF]
    exact ((List.mergeSort_perm funcs _).trans hperm.symm).map _ |>.flatten
  rcases hg : gapBlocks funcs lines with _ | ⟨g, gs⟩
  · rw [hg] at hgap
    have hout : reorder_functions rules order lines funcs =
        ((sortedFunctions rules order funcs).map (·.full_text)).flatten := by
      simp [reorder_functions, hg]
    have hnil : selectIdx (fun j => ! inBlocks funcs j) 0 lines = [] := by
      rw [← hgap]; simp
    rw [hnil, List.append_nil] at hpart
    rw [hout]
    exact hF.trans hpart.symm
  · rw [hg] at hgap
    simp only [List.map_cons, List.flatten_cons] at hgap
    by_cases hz : g.tag.eqZero
    · have hout : reorder_functions rules order lines funcs =
          g.text ++ ((sortedFunctions rules order funcs).map (·.full_text)).flatten ++
            (gs.map (·.text)).flatten := by
        simp [reorder_functions, hg, hz]
      rw [hout]
      have h1 : (g.text ++
            ((sortedFunctions rules order funcs).map (·.full_text)).flatten ++
            (gs.map (·.text)).flatten).Perm
          (((sortedFunctions rules order funcs).map (·.full_text)).flatten ++
            (g.text ++ (gs.map (·.text)).flatten)) := by
        have hc : (g.text ++
              ((sortedFunctions rules order funcs).map (·.full_text)).flatten).Perm
            (((sortedFunctions rules order funcs).map (·.full_text)).flatten ++
              g.text) := List.perm_append_comm
        have := hc.append_right ((gs.map (·.text)).flatten)
        simpa [List.append_assoc] using this
      have h2 : (((sortedFunctions rules order funcs).map (·.full_text)).flatten ++
            (g.text ++ (gs.map (·.text)).flatten)).Perm
          (selectIdx (inBlocks funcs) 0 lines ++
            selectIdx (fun j => ! inBlocks funcs j) 0 lines) :=
        hF.append (by rw [hgap])
      exact (h1.trans h2).trans hpart.symm
    · have hout : reorder_functions rules order lines funcs =
          ((sortedFunctions rules order funcs).map (·.full_text)).flatten ++
            (g.text ++ (gs.map (·.text)).flatten) := by
        simp [reorder_functions, hg, hz]
      rw [hout]
      exact (hF.append (by rw [hgap])).trans hpart.symm

instance : DecidableRel SpanDisjoint := fun f g => by
  unfold SpanDisjoint; infer_instance

instance (lines : List String) (f : PyFunc) : Decidable (SpannedBy lines f) := by
  unfold SpannedBy; infer_instance

/-- **C1**: for every implementation file and every family of matched
definitions with pairwise-disjoint line spans (each record carrying the
verbatim slice of its span as `full_text`, as `parse_source_file` builds
them), the output of `reorder_functions` is a permutation of the input
lines; in particular the multiset of non-blank content lines of the output
equals that of the input — no line is created, duplicated, or dropped. -/
theorem C1_reorder_permutation_invariant (rules : List LayoutRule)
    (order : String → Option Nat) (lines : List String) (funcs : List PyFunc)
    (hdisj : funcs.Pairwise SpanDisjoint)
    (hspan : ∀ f ∈ funcs, SpannedBy lines f) :
    (reorder_functions rules order lines funcs).Perm lines ∧
    ((reorder_functions rules order lines funcs).filter isContentLine).Perm
      (lines.filter isContentLine) := by
  have h := reorder_functions_perm rules order lines funcs hdisj hspan
  exact ⟨h, h.filter _⟩

/-- Witness fixture: a four-line file with one matched function. -/
def linesW : List String :=
  ["#include <a>\n", "void f() \x7b\n", "\x7d\n", "// trailer\n"]

/-- Witness fixture: the matched function spanning lines 1–2 of `linesW`. -/
def funcW : PyFunc :=
  { name := "f", signature := "void f()", line_start := 1, line_end := 2,
    full_text := ["void f() \x7b\n", "\x7d\n"], access_specifier := some "public",
    class_name := none, nspace := none, is_static := false }

/-- Witness for C1 at a concrete input. -/
theorem C1_witness :
    List.Pairwise SpanDisjoint [funcW] ∧ (∀ f ∈ [funcW], SpannedBy linesW f) ∧
    ((reorder_functions defaultRules (fun _ => some 0) linesW [funcW]).Perm linesW ∧
      ((reorder_functions defaultRules (fun _ => some 0) linesW [funcW]).filter
        isContentLine).Perm (linesW.filter isContentLine)) :=
  ⟨by decide, by decide,
    C1_reorder_permutation_invariant defaultRules (fun _ => some 0) linesW [funcW]
      (by decide) (by decide)⟩

theorem gapBlocksAux_acc_mem (inB : Nat → Bool) :
    ∀ (ls : List String) (i : Nat) (acc : List String), acc ≠ [] →
    ∃ g ∈ gapBlocksAux inB i acc ls, ∃ t, g.text = acc ++ t := by
  intro ls
  induction ls with
  | nil =>
    intro i acc hacc
    refine ⟨⟨.ofNat (i - acc.length), acc⟩, ?_, [], by simp⟩
    simp [gapBlocksAux, hacc]
  | cons l ls ih =>
    intro i acc hacc
    by_cases hb : inB i
    · refine ⟨⟨.ofStr (acc.headD ""), acc⟩, ?_, [], by simp⟩
      simp [gapBlocksAux, hb, hacc]
    · obtain ⟨g, hg, t, ht⟩ := ih (i + 1) (acc ++ [l]) (by simp)
      refine ⟨g, ?_, [l] ++ t, by simp [ht]⟩
      simpa [gapBlocksAux, hb] using hg

theorem gapBlocksAux_run (inB : Nat → Bool) (e : Nat) :
    ∀ (ls : List String) (i : Nat) (acc : List String),
    i ≤ e → e + 1 ≤ i + ls.length →
    (∀ j, i ≤ j → j ≤ e → inB j = false) →
    ∃ g ∈ gapBlocksAux inB i acc ls, ∃ t,
      g.text = acc ++ ls.take (e + 1 - i) ++ t := by
  intro ls
  induction ls with
  | nil => intro i acc h1 h2 _; simp at h2; omega
  | cons l ls ih =>
    intro i acc h1 h2 h3
    have hbi : inB i = false := h3 i le_rfl h1
    rcases Nat.eq_or_lt_of_le h1 with rfl | hlt
    · have htake : (l :: ls).take (i + 1 - i) = [l] := by
        have : i + 1 - i = 1 := by omega
        simp [this]
      obtain ⟨g, hg, t, ht⟩ :=
        gapBlocksAux_acc_mem inB ls (i + 1) (acc ++ [l]) (by simp)
      refine ⟨g, ?_, t, ?_⟩
      · simpa [gapBlocksAux, hbi] using hg
      · simp [htake, ht, List.append_assoc]
    · obtain ⟨g, hg, t, ht⟩ := ih (i + 1) (acc ++ [l]) (by omega)
        (by simp at h2 ⊢; omega) (fun j hj1 hj2 => h3 j (by omega) hj2)
      refine ⟨g, ?_, t, ?_⟩
      · simpa [gapBlocksAux, hbi] using hg
      · rw [ht]
        have htake : (l :: ls).take (e + 1 - i) = l :: ls.take (e + 1 - (i + 1)) := by
          have h4 : e + 1 - i = (e + 1 - (i + 1)) + 1 := by omega
          rw [h4, List.take_succ_cons]
        rw [htake]; simp [List.append_assoc]

theorem gapBlocksAux_slice (inB : Nat → Bool) (s e : Nat) :
    ∀ (ls : List String) (i : Nat) (acc : List String),
    i ≤ s → s ≤ e → e + 1 ≤ i + ls.length →
    (∀ j, s ≤ j → j ≤ e → inB j = false) →
    ∃ g ∈ gapBlocksAux inB i acc ls,
      ∃ t1 t2, g.text = t1 ++ (ls.drop (s - i)).take (e + 1 - s) ++ t2 := by
  intro ls
  induction ls with
  | nil => intro i acc h1 h2 h3 _; simp at h3; omega
  | cons l ls ih =>
    intro i acc h1 h2 h3 h4
    rcases Nat.eq_or_lt_of_le h1 with rfl | hlt
    · obtain ⟨g, hg, t, ht⟩ := gapBlocksAux_run inB e (l :: ls) i acc h2 h3 h4
      refine ⟨g, hg, acc, t, ?_⟩
      simpa [List.append_assoc] using ht
    · have hdrop : (l :: ls).drop (s - i) = ls.drop (s - (i + 1)) := by
        have h5 : s - i = (s - (i + 1)) + 1 := by omega
        rw [h5, List.drop_succ_cons]
      rw [hdrop]
      by_cases hb : inB i
      · obtain ⟨g, hg, t1, t2, ht⟩ := ih (i + 1) [] (by omega) h2
          (by simp at h3 ⊢; omega) h4
        by_cases ha : acc.isEmpty
        · refine ⟨g, ?_, t1, t2, ht⟩
          simpa [gapBlocksAux, hb, ha] using hg
        · refine ⟨g, ?_, t1, t2, ht⟩
          simp only [gapBlocksAux, hb, if_pos rfl, ha, if_neg Bool.false_ne_true]
          exact List.mem_cons_of_mem _ hg
      · obtain ⟨g, hg, t1, t2, ht⟩ := ih (i + 1) (acc ++ [l]) (by omega) h2
          (by simp at h3 ⊢; omega) h4
        refine ⟨g, ?_, t1, t2, ht⟩
        simpa [gapBlocksAux, hb] using hg

theorem gap_text_in_output (rules : List LayoutRule)
    (order : String → Option Nat) (lines : List String) (funcs : List PyFunc) :
    ∀ g ∈ gapBlocks funcs lines, ∃ a b,
      reorder_functions rules order lines funcs = a ++ g.text ++ b := by
  intro g hg
  rcases hgs : gapBlocks funcs lines with _ | ⟨g0, gs⟩
  · rw [hgs] at hg; cases hg
  · rw [hgs] at hg
    by_cases hz : g0.tag.eqZero
    · have hout : reorder_functions rules order lines funcs =
          g0.text ++ ((sortedFunctions rules order funcs).map (·.full_text)).flatten ++
            (gs.map (·.text)).flatten := by
        simp [reorder_functions, hgs, hz]
      rcases List.mem_cons.mp hg with rfl | hg'
      · exact ⟨[], ((sortedFunctions rules order funcs).map (·.full_text)).flatten ++
          (gs.map (·.text)).flatten, by simp [hout, List.append_assoc]⟩
      · obtain ⟨a, b, hab⟩ := mem_flatten_split g.text (gs.map (·.text))
          (List.mem_map_of_mem _ hg')
        exact ⟨g0.text ++
          ((sortedFunctions rules order funcs).map (·.full_text)).flatten ++ a, b,
          by simp [hout, hab, List.append_assoc]⟩
    · have hout : reorder_functions rules order lines funcs =
          ((sortedFunctions rules order funcs).map (·.full_text)).flatten ++
            (g0.text ++ (gs.map (·.text)).flatten) := by
        simp [reorder_functions, hgs, hz]
      obtain ⟨a, b, hab⟩ := mem_flatten_split g.text ((g0 :: gs).map (·.text))
        (List.mem_map_of_mem _ hg)
      refine ⟨((sortedFunctions rules order funcs).map (·.full_text)).flatten ++ a, b, ?_⟩
      simp only [List.map_cons, List.flatten_cons] at hab
      rw [hout, hab]
      simp [List.append_assoc]

theorem gapBlocksAux_eqZero_last (inB : Nat → Bool) :
    ∀ (ls : List String) (i : Nat) (acc : List String) (g : GapBlock)
      (gs : List GapBlock),
    gapBlocksAux inB i acc ls = g :: gs → g.tag.eqZero = true → gs = [] := by
  intro ls
  induction ls with
  | nil =>
    intro i acc g gs h hz
    by_cases ha : acc.isEmpty
    · simp [gapBlocksAux, ha] at h
    · simp only [gapBlocksAux, ha, if_neg Bool.false_ne_true] at h
      injection h with h1 h2
      exact h2.symm
  | cons l ls ih =>
    intro i acc g gs h hz
    by_cases hb : inB i
    · by_cases ha : acc.isEmpty
      · exact ih (i + 1) [] g gs (by simpa [gapBlocksAux, hb, ha] using h) hz
      · simp only [gapBlocksAux, hb, if_pos rfl, ha, if_neg Bool.false_ne_true] at h
        injection h with h1 h2
        rw [← h1] at hz
        simp [BTag.eqZero] at hz
    · exact ih (i + 1) (acc ++ [l]) g gs (by simpa [gapBlocksAux, hb] using h) hz

theorem reorder_functions_split (rules : List LayoutRule)
    (order : String → Option Nat) (lines : List String) (funcs : List PyFunc) :
    ∃ pre post,
      reorder_functions rules order lines funcs =
        pre ++ ((sortedFunctions rules order funcs).map (·.full_text)).flatten ++ post ∧
      (pre = [] ∨ post = []) ∧
      pre ++ post = selectIdx (fun j => ! inBlocks funcs j) 0 lines := by
  have hgap : ((gapBlocks funcs lines).map (·.text)).flatten =
      selectIdx (fun j => ! inBlocks funcs j) 0 lines := by
    simpa using gapBlocksAux_flatten (inBlocks funcs) lines 0 []
  rcases hg : gapBlocks funcs lines with _ | ⟨g, gs⟩
  · rw [hg] at hgap
    simp only [List.map_nil, List.flatten_nil] at hgap
    refine ⟨[], [], by simp [reorder_functions, hg], Or.inl rfl, ?_⟩
    simpa using hgap
  · rw [hg] at hgap
    simp only [List.map_cons, List.flatten_cons] at hgap
    by_cases hz : g.tag.eqZero
    · have hg' : gapBlocksAux (inBlocks funcs) 0 [] lines = g :: gs := hg
      have hgs : gs = [] := gapBlocksAux_eqZero_last (inBlocks funcs) lines 0 [] g gs hg' hz
      subst hgs
      simp only [List.map_nil, List.flatten_nil, List.append_nil] at hgap
      refine ⟨g.text, [], by simp [reorder_functions, hg, hz], Or.inr rfl, ?_⟩
      simpa using hgap
    · refine ⟨[], g.text ++ (gs.map (·.text)).flatten,
        by simp [reorder_functions, hg, hz], Or.inl rfl, ?_⟩
      simpa using hgap

theorem selectIdx_gap_slice (funcs : List PyFunc) (lines : List String)
    (s e : Nat) (hse : s ≤ e) (he : e < lines.length)
    (hgapline : ∀ j, s ≤ j → j ≤ e → inBlocks funcs j = false) :
    selectIdx (fun j => ! inBlocks funcs j) 0 lines =
      selectIdx (fun j => ! inBlocks funcs j) 0 (lines.take s) ++
      (lines.drop s).take (e + 1 - s) ++
      selectIdx (fun j => ! inBlocks funcs j) (e + 1) (lines.drop (e + 1)) := by
  have hlines : lines = lines.take s ++
      ((lines.drop s).take (e + 1 - s) ++ lines.drop (e + 1)) := by
    have hdd : ((lines.drop s).drop (e + 1 - s)) = lines.drop (e + 1) := by
      rw [List.drop_drop]; congr 1; omega
    rw [← hdd, List.take_append_drop, List.take_append_drop]
  have hlenT : (lines.take s).length = s := by
    rw [List.length_take, Nat.min_eq_left (by omega)]
  have hlenS : ((lines.drop s).take (e + 1 - s)).length = e + 1 - s := by
    rw [List.length_take, List.length_drop, Nat.min_eq_left (by omega)]
  have hself : selectIdx (fun j => ! inBlocks funcs j) s
      ((lines.drop s).take (e + 1 - s)) = (lines.drop s).take (e + 1 - s) := by
    apply selectIdx_eq_self
    intro j hj
    rw [hlenS] at hj
    simp [hgapline (s + j) (by omega) (by omega)]
  conv_lhs => rw [hlines]
  rw [selectIdx_append, selectIdx_append, hlenT]
  have h0s : 0 + s = s := by omega
  rw [h0s, hself, hlenS]
  have hs1 : s + (e + 1 - s) = e + 1 := by omega
  rw [hs1, List.append_assoc]

/-- **C7**: a definition that matches no header declaration is skipped by
`parse_source_file` (first conjunct: an unmatched cursor contributes no
record), so its lines lie outside every matched span; and `reorder_functions`
keeps such a span `[s, e]` at its original position relative to the
surrounding non-function content (second conjunct): the output splits as
`pre ++ functionText ++ post` with `pre` or `post` empty, and `pre ++ post` —
the non-function content read in output order — equals the non-function lines
that precede the span, then the span's lines verbatim and contiguous, then
the non-function lines that follow it, all in original input order; the
unmatched definition is never relocated within that content. -/
theorem C7_unmatched_definition_stable (rules : List LayoutRule)
    (order : String → Option Nat) (lines : List String) (funcs : List PyFunc)
    (s e : Nat) (hse : s ≤ e) (he : e < lines.length)
    (hgapline : ∀ j, s ≤ j → j ≤ e → inBlocks funcs j = false) :
    (∀ (hdr : List (String × PyFunc)) (c : Cursor) (cs : List Cursor),
      findMatchingHeaderFunction c.signature c.name hdr = none →
      parse_source_file lines hdr (c :: cs) = parse_source_file lines hdr cs) ∧
    ∃ pre post,
      reorder_functions rules order lines funcs =
        pre ++ ((sortedFunctions rules order funcs).map (·.full_text)).flatten ++ post ∧
      (pre = [] ∨ post = []) ∧
      pre ++ post =
        selectIdx (fun j => ! inBlocks funcs j) 0 (lines.take s) ++
        (lines.drop s).take (e + 1 - s) ++
        selectIdx (fun j => ! inBlocks funcs j) (e + 1) (lines.drop (e + 1)) := by
  constructor
  · intro hdr c cs hnone
    simp [parse_source_file, hnone]
  · obtain ⟨pre, post, hout, hsplit, hps⟩ :=
      reorder_functions_split rules order lines funcs
    exact ⟨pre, post, hout, hsplit, by
      rw [hps, selectIdx_gap_slice funcs lines s e hse he hgapline]⟩

/-- Witness fixture: a file whose first two lines are an unmatched
definition and whose last two lines are the only matched one. -/
def linesW7 : List String :=
  ["void u() \x7b\n", "\x7d\n", "void f() \x7b\n", "\x7d\n"]

/-- Witness fixture: the matched function spanning lines 2–3 of `linesW7`. -/
def funcW7 : PyFunc :=
  { name := "f", signature := "void f()", line_start := 2, line_end := 3,
    full_text := ["void f() \x7b\n", "\x7d\n"], access_specifier := some "public",
    class_name := none, nspace := none, is_static := false }

/-- Witness for C7 at a concrete input. -/
theorem C7_witness :
    (∀ j, 0 ≤ j → j ≤ 1 → inBlocks [funcW7] j = false) ∧
    ((∀ (hdr : List (String × PyFunc)) (c : Cursor) (cs : List Cursor),
      findMatchingHeaderFunction c.signature c.name hdr = none →
      parse_source_file linesW7 hdr (c :: cs) = parse_source_file linesW7 hdr cs) ∧
    ∃ pre post,
      reorder_functions defaultRules (fun _ => some 0) linesW7 [funcW7] =
        pre ++ ((sortedFunctions defaultRules (fun _ => some 0) [funcW7]).map
          (·.full_text)).flatten ++ post ∧
      (pre = [] ∨ post = []) ∧
      pre ++ post =
        selectIdx (fun j => ! inBlocks [funcW7] j) 0 (linesW7.take 0) ++
        (linesW7.drop 0).take (1 + 1 - 0) ++
        selectIdx (fun j => ! inBlocks [funcW7] j) (1 + 1) (linesW7.drop (1 + 1))) :=
  ⟨fun j h1 h2 => by
      have hj : j = 0 ∨ j = 1 := by omega
      rcases hj with rfl | rfl <;> decide,
    C7_unmatched_definition_stable defaultRules (fun _ => some 0) linesW7 [funcW7]
      0 1 (by decide) (by decide)
      (fun j h1 h2 => by
        have hj : j = 0 ∨ j = 1 := by omega
        rcases hj with rfl | rfl <;> decide)⟩

theorem ordLe_refl (a : Option Nat) : ordLe a a = true := by
  cases a <;> simp [ordLe]

theorem ordLt_irrefl (a : Option Nat) : ordLt a a = false := by
  cases a <;> simp [ordLt]

theorem ordLe_total (a b : Option Nat) : (ordLe a b || ordLe b a) = true := by
  cases a <;> cases b <;> simp [ordLe] <;> omega

theorem ordLe_trans (a b c : Option Nat) (h1 : ordLe a b = true)
    (h2 : ordLe b c = true) : ordLe a c = true := by
  cases a <;> cases b <;> cases c <;> simp_all [ordLe] <;> omega

theorem ordLt_ordLe_absurd (a b : Option Nat) (h1 : ordLt a b = true)
    (h2 : ordLe b a = true) : False := by
  cases a <;> cases b <;> simp_all [ordLt, ordLe] <;> omega

theorem keyLe_total (a b : Int × Option Nat) : (keyLe a b || keyLe b a) = true := by
  rcases a with ⟨a1, a2⟩; rcases b with ⟨b1, b2⟩
  simp only [keyLe, Bool.or_eq_true, Bool.and_eq_true, decide_eq_true_eq]
  rcases lt_trichotomy a1 b1 with h | h | h
  · tauto
  · subst h
    have := ordLe_total a2 b2
    simp only [Bool.or_eq_true] at this
    tauto
  · tauto

theorem keyLe_trans (a b c : Int × Option Nat) (h1 : keyLe a b = true)
    (h2 : keyLe b c = true) : keyLe a c = true := by
  rcases a with ⟨a1, a2⟩; rcases b with ⟨b1, b2⟩; rcases c with ⟨c1, c2⟩
  simp only [keyLe, Bool.or_eq_true, Bool.and_eq_true, decide_eq_true_eq] at h1 h2 ⊢
  rcases h1 with h1 | ⟨h1, h1o⟩ <;> rcases h2 with h2 | ⟨h2, h2o⟩
  · left; omega
  · left; omega
  · left; omega
  · right; exact ⟨by omega, ordLe_trans _ _ _ h1o h2o⟩

theorem keyLt_keyLe_absurd (a b : Int × Option Nat) (h1 : keyLt a b = true)
    (h2 : keyLe b a = true) : False := by
  rcases a with ⟨a1, a2⟩; rcases b with ⟨b1, b2⟩
  simp only [keyLt, keyLe, Bool.or_eq_true, Bool.and_eq_true,
    decide_eq_true_eq] at h1 h2
  rcases h1 with h1 | ⟨h1, h1o⟩ <;> rcases h2 with h2 | ⟨h2, h2o⟩
  · omega
  · omega
  · omega
  · exact ordLt_ordLe_absurd _ _ h1o h2o

theorem sortedFunctions_pairwise (rules : List LayoutRule)
    (order : String → Option Nat) (funcs : List PyFunc) :
    List.Pairwise
      (fun a b => keyLe (sortKey rules order a) (sortKey rules order b) = true)
      (sortedFunctions rules order funcs) := by
  unfold sortedFunctions
  exact @List.sorted_mergeSort PyFunc
    (fun a b => keyLe (sortKey rules order a) (sortKey rules order b))
    (fun a b c hab hbc => keyLe_trans _ _ _ hab hbc)
    (fun a b => keyLe_total _ _) funcs

/-- **C2**: in the output order of `reorder_functions` (the sorted matched
definitions), a definition whose computed priority is strictly smaller
comes strictly earlier; and with equal priorities, the one whose header
declaration order index is smaller comes first. -/
theorem C2_order_correctness (rules : List LayoutRule)
    (order : String → Option Nat) (funcs : List PyFunc)
    (i j : Nat) (A B : PyFunc)
    (hA : (sortedFunctions rules order funcs)[i]? = some A)
    (hB : (sortedFunctions rules order funcs)[j]? = some B)
    (h : priorityOf rules A < priorityOf rules B ∨
      (priorityOf rules A = priorityOf rules B ∧
        ordLt (order A.signature) (order B.signature) = true)) :
    i < j := by
  obtain ⟨hilen, hAi⟩ := List.getElem?_eq_some_iff.mp hA
  obtain ⟨hjlen, hBj⟩ := List.getElem?_eq_some_iff.mp hB
  have hkey : keyLt (sortKey rules order A) (sortKey rules order B) = true := by
    simp only [keyLt, sortKey, Bool.or_eq_true, Bool.and_eq_true,
      decide_eq_true_eq]
    tauto
  by_contra hij
  push_neg at hij
  rcases Nat.lt_or_ge j i with hji | hji
  · have hpw := List.pairwise_iff_getElem.mp
      (sortedFunctions_pairwise rules order funcs) j i hjlen hilen hji
    rw [hAi, hBj] at hpw
    exact keyLt_keyLe_absurd _ _ hkey hpw
  · have : i = j := by omega
    subst this
    rw [hAi] at hBj
    subst hBj
    simp only [keyLt, Bool.or_eq_true, Bool.and_eq_true, decide_eq_true_eq,
      lt_irrefl, false_or] at hkey
    rw [ordLt_irrefl] at hkey
    exact absurd hkey.2 (by simp)

/-- Witness fixture: header-order table for signatures `sa`, `sb`. -/
def ordW : String → Option Nat := fun s =>
  if s = "sa" then some 0 else if s = "sb" then some 1 else none

/-- Witness fixture: two matched definitions with equal default priority. -/
def fAW : PyFunc :=
  { name := "a", signature := "sa", line_start := 0, line_end := 0,
    full_text := [], access_specifier := some "private", class_name := none,
    nspace := none, is_static := false }

/-- Witness fixture: second definition, later header order. -/
def fBW : PyFunc :=
  { name := "b", signature := "sb", line_start := 0, line_end := 0,
    full_text := [], access_specifier := some "public", class_name := none,
    nspace := none, is_static := true }

/-- Witness for C2 at a concrete input (equal priorities, tie broken by the
header order index). -/
theorem C2_witness :
    (sortedFunctions defaultRules ordW [fAW, fBW])[0]? = some fAW ∧
    (sortedFunctions defaultRules ordW [fAW, fBW])[1]? = some fBW ∧
    (priorityOf defaultRules fAW < priorityOf defaultRules fBW ∨
      (priorityOf defaultRules fAW = priorityOf defaultRules fBW ∧
        ordLt (ordW fAW.signature) (ordW fBW.signature) = true)) ∧
    (0 : Nat) < 1 := by
  have hs : sortedFunctions defaultRules ordW [fAW, fBW] = [fAW, fBW] := by
    unfold sortedFunctions
    apply List.mergeSort_of_sorted
    decide
  have h0 : (sortedFunctions defaultRules ordW [fAW, fBW])[0]? = some fAW := by
    rw [hs]; rfl
  have h1 : (sortedFunctions defaultRules ordW [fAW, fBW])[1]? = some fBW := by
    rw [hs]; rfl
  have hp : priorityOf defaultRules fAW < priorityOf defaultRules fBW ∨
      (priorityOf defaultRules fAW = priorityOf defaultRules fBW ∧
        ordLt (ordW fAW.signature) (ordW fBW.signature) = true) := by decide
  exact ⟨h0, h1, hp,
    C2_order_correctness defaultRules ordW [fAW, fBW] 0 1 fAW fBW h0 h1 hp⟩

/-- A simple name: an identifier optionally preceded by `~` (the anchored
alternative `^~?\w+$` of the default name-pattern rule). -/
def plainName (n : String) : Bool :=
  match n.data with
  | '~' :: rest => ¬ rest.isEmpty && rest.all isWordChar
  | l => ¬ l.isEmpty && l.all isWordChar

theorem defaultNamePattern_of_plainName (n : String)
    (h : plainName n = true) : defaultNamePattern n = true := by
  rw [defaultNamePattern]
  rw [plainName] at h
  rcases hn : n.data with _ | ⟨c, rest⟩ <;> rw [hn] at h <;> simp_all

theorem priorityOf_defaultRules_of_plainName (f : PyFunc)
    (h : plainName f.name = true) : priorityOf defaultRules f = 3 := by
  have hm : LayoutRule.matches ⟨3, { name_pattern := some defaultNamePattern }⟩ f
      = true := by
    simp [LayoutRule.matches, defaultNamePattern_of_plainName f.name h]
  simp only [priorityOf, defaultRules, List.foldl_cons, List.foldl_nil, hm,
    if_pos rfl]
  split_ifs <;> decide

/-- **C10**: under the built-in default rule set, every definition whose
simple name is a plain identifier (optionally preceded by `~`) satisfies the
priority-3 name-pattern rule, hence receives the minimum priority 3; the
resulting sorted order is therefore ordered purely by the header declaration
index, regardless of access specifier or static-ness. -/
theorem C10_default_rules_degenerate (order : String → Option Nat)
    (funcs : List PyFunc) (hplain : ∀ f ∈ funcs, plainName f.name = true) :
    (∀ f ∈ funcs, priorityOf defaultRules f = 3) ∧
    List.Pairwise
      (fun a b => ordLe (order a.signature) (order b.signature) = true)
      (sortedFunctions defaultRules order funcs) := by
  have hpri : ∀ f ∈ funcs, priorityOf defaultRules f = 3 := fun f hf =>
    priorityOf_defaultRules_of_plainName f (hplain f hf)
  refine ⟨hpri, ?_⟩
  have hperm : (sortedFunctions defaultRules order funcs).Perm funcs :=
    List.mergeSort_perm funcs _
  refine List.Pairwise.imp_of_mem ?_
    (sortedFunctions_pairwise defaultRules order funcs)
  intro a b ha hb hab
  have hpa := hpri a (hperm.mem_iff.mp ha)
  have hpb := hpri b (hperm.mem_iff.mp hb)
  simp only [keyLe, sortKey, hpa, hpb, Bool.or_eq_true, Bool.and_eq_true,
    decide_eq_true_eq, lt_irrefl, false_or] at hab
  exact hab.2

/-- Witness for C10 at a concrete input: a private static-free function and
a public static one, declared in reverse header order. -/
theorem C10_witness :
    (∀ f ∈ [fAW, fBW], plainName f.name = true) ∧
    ((∀ f ∈ [fAW, fBW], priorityOf defaultRules f = 3) ∧
    List.Pairwise
      (fun a b => ordLe (ordW a.signature) (ordW b.signature) = true)
      (sortedFunctions defaultRules ordW [fAW, fBW])) :=
  ⟨by decide, C10_default_rules_degenerate ordW [fAW, fBW] (by decide)⟩

theorem foldl_min_le_init (f : PyFunc) :
    ∀ (rules : List LayoutRule) (acc : Int),
    rules.foldl (fun p r => if r.matches f then min p r.priority else p) acc ≤ acc := by
  intro rules
  induction rules with
  | nil => intro acc; simp
  | cons r rest ih =>
    intro acc
    simp only [List.foldl_cons]
    by_cases h : r.matches f
    · exact le_trans (ih _) (by simp [h, min_le_left])
    · simp only [h, Bool.false_eq_true, if_neg, not_false_eq_true]
      exact ih acc

theorem priorityOf_le_of_matches (f : PyFunc) (r : LayoutRule) :
    ∀ (rules : List LayoutRule), r ∈ rules → r.matches f = true →
    priorityOf rules f ≤ r.priority := by
  have haux : ∀ (rules : List LayoutRule) (acc : Int), r ∈ rules →
      r.matches f = true →
      rules.foldl (fun p q => if q.matches f then min p q.priority else p) acc ≤
        r.priority := by
    intro rules
    induction rules with
    | nil => intro acc h; cases h
    | cons q rest ih =>
      intro acc hmem hr
      rcases List.mem_cons.mp hmem with rfl | hmem'
      · simp only [List.foldl_cons, hr, if_pos rfl]
        exact le_trans (foldl_min_le_init f rest _) (min_le_right _ _)
      · simp only [List.foldl_cons]
        by_cases hq : q.matches f <;> simp only [hq] <;> exact ih _ hmem' hr
  intro rules hmem hr
  exact haux rules 1000 hmem hr

theorem priorityOf_eq_sentinel (f : PyFunc) (rules : List LayoutRule)
    (h : ∀ r ∈ rules, r.matches f = false) : priorityOf rules f = 1000 := by
  have haux : ∀ (rules : List LayoutRule) (acc : Int),
      (∀ r ∈ rules, r.matches f = false) →
      rules.foldl (fun p q => if q.matches f then min p q.priority else p) acc =
        acc := by
    intro rules
    induction rules with
    | nil => intro acc _; rfl
    | cons q rest ih =>
      intro acc hall
      have hq : q.matches f = false := hall q (List.mem_cons_self _ _)
      simp only [List.foldl_cons, hq, Bool.false_eq_true, if_neg,
        not_false_eq_true]
      exact ih acc fun r hr => hall r (List.mem_cons_of_mem _ hr)
  exact haux rules 1000 h

/-- **C8 counterexample**: with a configured rule of priority 2000 the
claim fails — a definition matching that rule gets sort priority
`min 1000 2000 = 1000`, exactly the sentinel a rule-less definition gets,
so the sentinel is not strictly greater. -/
def ruleW8 : LayoutRule := ⟨2000, { access := some "public" }⟩

/-- Witness fixture: a public function (matches `ruleW8`). -/
def funcW8A : PyFunc :=
  { name := "a", signature := "sa", line_start := 0, line_end := 0,
    full_text := [], access_specifier := some "public", class_name := none,
    nspace := none, is_static := false }

/-- Witness fixture: a private function (matches no rule of `[ruleW8]`). -/
def funcW8B : PyFunc :=
  { name := "b", signature := "sb", line_start := 0, line_end := 0,
    full_text := [], access_specifier := some "private", class_name := none,
    nspace := none, is_static := false }

/-- C8 as stated is false: under the configuration `[ruleW8]` (priority
2000), `funcW8A` satisfies a rule and `funcW8B` satisfies none, yet the
rule-less definition's sentinel priority 1000 is not strictly greater than
the rule-matched definition's priority (also 1000). -/
theorem C8_counterexample :
    ruleW8.matches funcW8A = true ∧
    (∀ r ∈ [ruleW8], r.matches funcW8B = false) ∧
    priorityOf [ruleW8] funcW8A = 1000 ∧
    priorityOf [ruleW8] funcW8B = 1000 ∧
    ¬ priorityOf [ruleW8] funcW8B > priorityOf [ruleW8] funcW8A := by
  refine ⟨by decide, by decide, by decide, by decide, by decide⟩

/-- **C8 amended**: for configurations whose rule priorities are all below
the sentinel 1000, a definition satisfying no rule is assigned the sentinel
1000, which is strictly greater than the priority of any definition
satisfying at least one rule — so rule-less definitions sort after all
rule-matched ones. -/
theorem C8_sentinel_priority (rules : List LayoutRule) (A B : PyFunc)
    (hbound : ∀ r ∈ rules, r.priority < 1000)
    (hA : ∃ r ∈ rules, r.matches A = true)
    (hB : ∀ r ∈ rules, r.matches B = false) :
    priorityOf rules B = 1000 ∧ priorityOf rules A < priorityOf rules B := by
  obtain ⟨r, hr, hrA⟩ := hA
  have h1 := priorityOf_eq_sentinel B rules hB
  have h2 := priorityOf_le_of_matches A r rules hr hrA
  have h3 := hbound r hr
  exact ⟨h1, by omega⟩

/-- Witness fixture: a public-before rule with priority 5. -/
def ruleW8b : LayoutRule := ⟨5, { access := some "public" }⟩

/-- Witness for the amended C8 at a concrete input. -/
theorem C8_witness :
    (∀ r ∈ [ruleW8b], r.priority < 1000) ∧
    (∃ r ∈ [ruleW8b], r.matches funcW8A = true) ∧
    (∀ r ∈ [ruleW8b], r.matches funcW8B = false) ∧
    (priorityOf [ruleW8b] funcW8B = 1000 ∧
      priorityOf [ruleW8b] funcW8A < priorityOf [ruleW8b] funcW8B) :=
  ⟨by decide, by decide, by decide,
    C8_sentinel_priority [ruleW8b] funcW8A funcW8B (by decide) (by decide)
      (by decide)⟩

/-- **C4 amended**: the matcher iterates over the declaration table in
insertion order and, per entry, first tries exact normalised-signature
equality and then the simple-name-plus-parameter fallback; the first entry
whose per-entry disjunction succeeds is returned.  The fallback compares
simple names only (not qualified names), and can fire on an early entry
even when a later entry matches exactly. -/
theorem C4_matcher_first_hit (cppSignature cppName : String)
    (table : List (String × PyFunc)) (h : String) :
    findMatchingHeaderFunction cppSignature cppName table = some h ↔
      ∃ hf t1 t2, table = t1 ++ (h, hf) :: t2 ∧
        entryHit cppSignature cppName h hf = true ∧
        ∀ e ∈ t1, entryHit cppSignature cppName e.1 e.2 = false := by
  induction table with
  | nil =>
    simp only [findMatchingHeaderFunction]
    constructor
    · intro hc; cases hc
    · rintro ⟨hf, t1, t2, htab, -, -⟩
      exact absurd htab (by simp)
  | cons p rest ih =>
    rcases p with ⟨s0, f0⟩
    by_cases hhit : entryHit cppSignature cppName s0 f0 = true
    · have hfind : findMatchingHeaderFunction cppSignature cppName
          ((s0, f0) :: rest) = some s0 := by
        simp only [entryHit, Bool.or_eq_true, Bool.and_eq_true,
          decide_eq_true_eq] at hhit
        rcases hhit with hex | ⟨hn, hp⟩
        · simp [findMatchingHeaderFunction, hex]
        · by_cases hex : normalizeSignature cppSignature = normalizeSignature s0
          · simp [findMatchingHeaderFunction, hex]
          · simp [findMatchingHeaderFunction, hex, hn, hp]
      rw [hfind]
      constructor
      · intro heq
        injection heq with heq
        subst heq
        exact ⟨f0, [], rest, rfl, hhit, by simp⟩
      · rintro ⟨hf, t1, t2, htab, hhit', hall⟩
        rcases t1 with _ | ⟨a, t1'⟩
        · simp only [List.nil_append, List.cons.injEq] at htab
          exact congrArg (fun q => some q.1) htab.1
        · simp only [List.cons_append, List.cons.injEq] at htab
          have hfalse := hall a (List.mem_cons_self _ _)
          rw [← htab.1] at hfalse
          rw [hfalse] at hhit
          cases hhit
    · have hfind : findMatchingHeaderFunction cppSignature cppName
          ((s0, f0) :: rest) =
          findMatchingHeaderFunction cppSignature cppName rest := by
        simp only [entryHit, Bool.or_eq_true, Bool.and_eq_true,
          decide_eq_true_eq, not_or, not_and] at hhit
        obtain ⟨hex, hfb⟩ := hhit
        by_cases hn : f0.name = cppName
        · have hp : compareParameterLists (extractParameters cppSignature)
              (extractParameters s0) = false := by simpa using hfb hn
          simp [findMatchingHeaderFunction, hex, hn, hp]
        · simp [findMatchingHeaderFunction, hex, hn]
      rw [hfind, ih]
      constructor
      · rintro ⟨hf, t1, t2, htab, hhit', hall⟩
        exact ⟨hf, (s0, f0) :: t1, t2, by simp [htab], hhit',
          fun e he => by
            rcases List.mem_cons.mp he with rfl | he'
            · simpa using (Bool.eq_false_iff.mpr hhit)
            · exact hall e he'⟩
      · rintro ⟨hf, t1, t2, htab, hhit', hall⟩
        rcases t1 with _ | ⟨a, t1'⟩
        · simp only [List.nil_append, List.cons.injEq] at htab
          have h1 : entryHit cppSignature cppName s0 f0 = true := by
            have hs : s0 = h := congrArg Prod.fst htab.1
            have hff : f0 = hf := congrArg Prod.snd htab.1
            rw [hs, hff]; exact hhit'
          exact absurd h1 hhit
        · simp only [List.cons_append, List.cons.injEq] at htab
          exact ⟨hf, t1', t2, htab.2, hhit',
            fun e he => hall e (List.mem_cons_of_mem _ he)⟩

/-- Counterexample fixture: header declaration `void C::f(int x)` (parameter
name kept in the raw signature, so no exact normalised match). -/
def hfW41 : PyFunc :=
  { name := "f", signature := "void C::f(int x)", line_start := 1,
    line_end := 1, full_text := [], access_specifier := some "public",
    class_name := some "C", nspace := none, is_static := false }

/-- Counterexample fixture: header declaration `void C::f(int)` (exact
normalised match for the definition's signature). -/
def hfW42 : PyFunc :=
  { name := "f", signature := "void C::f(int)", line_start := 2,
    line_end := 2, full_text := [], access_specifier := some "public",
    class_name := some "C", nspace := none, is_static := false }

/-- Counterexample fixture: the header table with the fallback-only entry
first. -/
def hdrW4 : List (String × PyFunc) :=
  [("void C::f(int x)", hfW41), ("void C::f(int)", hfW42)]

/-- C4 as stated is false: the second table entry matches the definition's
signature exactly (equal normalised signatures), yet the matcher returns the
first entry via the name-plus-parameter fallback — the two phases are per
entry, not over the whole table, so the fallback fires before a later exact
match is ever tested. -/
theorem C4_counterexample :
    findMatchingHeaderFunction "void C::f(int)" "f" hdrW4 =
      some "void C::f(int x)" ∧
    ("void C::f(int)", hfW42) ∈ hdrW4 ∧
    normalizeSignature "void C::f(int)" = normalizeSignature hfW42.signature ∧
    normalizeSignature "void C::f(int)" ≠ normalizeSignature hfW41.signature ∧
    "void C::f(int x)" ≠ "void C::f(int)" := by
  refine ⟨by decide, by decide, by decide, by decide, by decide⟩

theorem dictGet_dictInsert {α : Type} (k sig : String) (v : α)
    (l : List (String × α)) :
    dictGet sig (dictInsert k v l) =
      if sig = k then some v else dictGet sig l := by
  induction l with
  | nil =>
    by_cases h : sig = k
    · subst h; simp [dictInsert, dictGet]
    · simp [dictInsert, dictGet, h, Ne.symm h]
  | cons p rest ih =>
    rcases p with ⟨k', v'⟩
    by_cases hk : k' = k
    · subst hk
      by_cases h : sig = k'
      · subst h; simp [dictInsert, dictGet]
      · simp [dictInsert, dictGet, h, Ne.symm h]
    · by_cases h : sig = k'
      · subst h
        simp [dictInsert, dictGet, hk]
      · simp [dictInsert, dictGet, hk, h, Ne.symm h, ih]

theorem parseHeaderAux_lookup :
    ∀ (decls : List DeclRec) (fs : List (String × PyFunc))
      (ord : List (String × Nat)) (idx : Nat) (sig : String),
    dictGet sig (parseHeaderAux decls fs ord idx).1 =
      match decls.reverse.find? (fun d => d.signature = sig) with
      | some d => some (mkHeaderFunc d)
      | none => dictGet sig fs := by
  intro decls
  induction decls with
  | nil => intro fs ord idx sig; rfl
  | cons d ds ih =>
    intro fs ord idx sig
    rw [parseHeaderAux, ih]
    cases hf : ds.reverse.find? (fun d' => d'.signature = sig) with
    | some d' =>
      simp [List.reverse_cons, List.find?_append, hf, Option.or]
    | none =>
      by_cases h : d.signature = sig
      · simp [List.reverse_cons, List.find?_append, hf, Option.or,
          List.find?_cons, h, dictGet_dictInsert]
      · simp [List.reverse_cons, List.find?_append, hf, Option.or,
          List.find?_cons, h, dictGet_dictInsert, Ne.symm h]

/-- **C3 amended**: building the declaration table never fails — there is no
`DuplicateSignatureError` anywhere in the code; `parse_header_file` is a
total function.  Declarations are keyed by their *raw* clang signature:
looking up a signature returns the *last* declaration with that exact raw
signature (a later duplicate silently replaces an earlier one), while two
distinct raw spellings that normalise identically are both retained as
separate entries. -/
theorem C3_header_table_last_wins (decls : List DeclRec) (sig : String) :
    dictGet sig (parse_header_file decls).1 =
      match decls.reverse.find? (fun d => d.signature = sig) with
      | some d => some (mkHeaderFunc d)
      | none => none := by
  have h := parseHeaderAux_lookup decls [] [] 0 sig
  rw [parse_header_file]
  rw [h]
  cases decls.reverse.find? (fun d => d.signature = sig) <;> rfl

/-- Counterexample fixture: declaration `void f( int )`. -/
def declD1 : DeclRec :=
  { signature := "void f( int )", name := "f", line_start := 1, line_end := 1,
    access_specifier := some "public", class_name := none, nspace := none,
    is_static := false }

/-- Counterexample fixture: declaration `void f(int)` — same normalised
signature as `declD1`, different raw spelling. -/
def declD2 : DeclRec :=
  { signature := "void f(int)", name := "f", line_start := 2, line_end := 2,
    access_specifier := some "public", class_name := none, nspace := none,
    is_static := false }

/-- C3 as stated is false: these two declarations normalise to the same
signature in the same (global) scope, yet building the table does not fail
with `DuplicateSignatureError` — the loop is total and returns a two-entry
table retaining both declarations under their raw signatures. -/
theorem C3_counterexample :
    normalizeSignature declD1.signature = normalizeSignature declD2.signature ∧
    declD1.signature ≠ declD2.signature ∧
    (parse_header_file [declD1, declD2]).1.length = 2 ∧
    dictGet declD1.signature (parse_header_file [declD1, declD2]).1 =
      some (mkHeaderFunc declD1) ∧
    dictGet declD2.signature (parse_header_file [declD1, declD2]).1 =
      some (mkHeaderFunc declD2) := by
  refine ⟨by decide, by decide, by decide, by decide, by decide⟩

/-- C5 as stated is false: `_normalize_signature` strips neither parameter
names nor default-value clauses, so both asserted equalities fail. -/
theorem C5_counterexample :
    normalizeSignature "void f(const int x)" ≠ normalizeSignature "void f(int)" ∧
    normalizeSignature "int g ( std::string s = \"x\" )" ≠
      normalizeSignature "int g(std::string)" := by
  refine ⟨by decide, by decide⟩

/-- **C5 amended**: normalisation collapses whitespace around `::`, `(`,
`)`, `,` and strips the tokens `const`/`volatile`, but keeps parameter
names and default-value clauses (leaving the space freed by a removed
`const` in place), so `normalize("void f(const int x)") = "void f( int x)"`
and `normalize("int g ( std::string s = \"x\" )") =
"int g(std::string s = \"x\")"`. -/
theorem C5_normalization_keeps_names :
    normalizeSignature "void f(const int x)" = "void f( int x)" ∧
    normalizeSignature "int g ( std::string s = \"x\" )" =
      "int g(std::string s = \"x\")" ∧
    normalizeSignature "void f(int)" = "void f(int)" ∧
    normalizeSignature "int g(std::string)" = "int g(std::string)" := by
  refine ⟨by decide, by decide, by decide, by decide⟩

/-- Counterexample fixture for C9: file whose first function's closing line
begins with a block comment. -/
def linesW9 : List String :=
  ["void A::f() \x7b\n", "/* x */ \x7d\n", "void A::g() \x7b \x7d\n"]

/-- Counterexample fixture: header metadata for `f`. -/
def declW9f : PyFunc :=
  { name := "f", signature := "void A::f()", line_start := 1, line_end := 1,
    full_text := [], access_specifier := some "public",
    class_name := some "A", nspace := none, is_static := false }

/-- Counterexample fixture: header metadata for `g`. -/
def declW9g : PyFunc :=
  { name := "g", signature := "void A::g()", line_start := 2, line_end := 2,
    full_text := [], access_specifier := some "public",
    class_name := some "A", nspace := none, is_static := false }

/-- Counterexample fixture: the header table for C9. -/
def hdrW9 : List (String × PyFunc) :=
  [("void A::f()", declW9f), ("void A::g()", declW9g)]

/-- Counterexample fixture: the two definition cursors (1-based extents
`[1,2]` and `[3,3]`). -/
def cursW9 : List Cursor :=
  [⟨"f", "void A::f()", 1, 2⟩, ⟨"g", "void A::g()", 3, 3⟩]

/-- C9 as stated is false: after leading-comment extension the two matched
records have spans `[0,1]` and `[1,2]` — `g`'s extension walks backwards
over `f`'s final closing line, whose stripped form begins with a block
comment, and claims line 1, which `f`'s span already contains; no
truncation of the comment run ever happens. -/
theorem C9_counterexample :
    ((parse_source_file linesW9 hdrW9 cursW9).map
      (fun r => (r.line_start, r.line_end)) = [(0, 1), (1, 2)]) ∧
    (∀ r1 ∈ parse_source_file linesW9 hdrW9 cursW9,
      ∀ r2 ∈ parse_source_file linesW9 hdrW9 cursW9,
        r1 ≠ r2 → ¬ SpanDisjoint r1 r2) := by
  refine ⟨by decide, by decide⟩

theorem extendCommentStart_gt (lines : List String) (e : Nat) :
    ∀ s : Nat, e < s → commentish (lines.getD e "") = false →
    e < extendCommentStart lines s := by
  intro s
  induction s with
  | zero => intro h _; omega
  | succ s ih =>
    intro h hnc
    rw [extendCommentStart]
    simp only [List.getD] at hnc
    split
    · next hc =>
      rcases Nat.lt_or_ge e s with h2 | h2
      · exact ih h2 (by simpa [List.getD] using hnc)
      · have he : e = s := by omega
        rw [he] at hnc
        simp only [List.getD] at hc
        rw [hnc] at hc
        cases hc
    · omega

/-- **C9 amended**: span extension performs no truncation against lines
already claimed by an earlier record, so overlap is possible (see the
counterexample); but whenever the earlier cursor's final line is *not*
comment-or-blank shaped and the raw extents are ordered, the later record's
extended span stays strictly after the earlier record's span — leading
comment/blank attribution then cannot cross a solid code line. -/
theorem C9_disjoint_of_solid_end (lines : List String) (hf1 hf2 : PyFunc)
    (hs1 hs2 : String) (c1 c2 : Cursor) (r1 r2 : PyFunc)
    (h1 : mkSourceRecord lines hf1 hs1 c1 = some r1)
    (h2 : mkSourceRecord lines hf2 hs2 c2 = some r2)
    (hpos : 1 ≤ c1.endLine) (hord : c1.endLine < c2.startLine)
    (hnc : commentish (lines.getD (c1.endLine - 1) "") = false) :
    r1.line_end < r2.line_start := by
  rw [mkSourceRecord] at h1 h2
  split_ifs at h1 h2 with hg1 hg2
  injection h1 with h1
  injection h2 with h2
  have he1 : r1.line_end = c1.endLine - 1 := by
    rw [← h1]
    simp only []
    omega
  have hs2' : r2.line_start =
      extendCommentStart lines (((c2.startLine : Int) - 1).toNat) := by
    rw [← h2]
  have hstart : ((c2.startLine : Int) - 1).toNat = c2.startLine - 1 := by omega
  rw [he1, hs2', hstart]
  exact extendCommentStart_gt lines (c1.endLine - 1) (c2.startLine - 1)
    (by omega) hnc

/-- Witness fixture: the same two functions with a solid `}` closing line. -/
def linesW9b : List String :=
  ["void A::f() \x7b\n", "\x7d\n", "void A::g() \x7b \x7d\n"]

/-- Witness fixture: the record built for `f` over `linesW9b`. -/
def recW9b1 : PyFunc :=
  { name := "f", signature := "void A::f()", line_start := 0, line_end := 1,
    full_text := ["void A::f() \x7b\n", "\x7d\n"],
    access_specifier := some "public", class_name := some "A",
    nspace := none, is_static := false }

/-- Witness fixture: the record built for `g` over `linesW9b`. -/
def recW9b2 : PyFunc :=
  { name := "g", signature := "void A::g()", line_start := 2, line_end := 2,
    full_text := ["void A::g() \x7b \x7d\n"],
    access_specifier := some "public", class_name := some "A",
    nspace := none, is_static := false }

/-- Witness for the amended C9 at a concrete input. -/
theorem C9_witness :
    (mkSourceRecord linesW9b declW9f "void A::f()" ⟨"f", "void A::f()", 1, 2⟩ =
      some recW9b1) ∧
    (mkSourceRecord linesW9b declW9g "void A::g()" ⟨"g", "void A::g()", 3, 3⟩ =
      some recW9b2) ∧
    (1 : Nat) ≤ 2 ∧ (2 : Nat) < 3 ∧
    commentish (linesW9b.getD (2 - 1) "") = false ∧
    recW9b1.line_end < recW9b2.line_start :=
  ⟨by decide, by decide, by decide, by decide, by decide,
    C9_disjoint_of_solid_end linesW9b declW9f declW9g "void A::f()"
      "void A::g()" ⟨"f", "void A::f()", 1, 2⟩ ⟨"g", "void A::g()", 3, 3⟩
      recW9b1 recW9b2 (by decide) (by decide) (by decide) (by decide)
      (by decide)⟩

/-- Occurrence test mirroring `removeWordF`'s scan: does `s`, read with left
context `prev`, contain a boundary-delimited occurrence of `w`? -/
def hasWordTokF (w : List Char) : Nat → Option Char → List Char → Bool
  | 0, _, _ => false
  | _ + 1, _, [] => false
  | fuel + 1, prev, c :: cs =>
    if w ≠ [] ∧ boundaryL prev ∧ w.isPrefixOf (c :: cs) ∧
        boundaryR ((c :: cs).drop w.length) then true
    else hasWordTokF w fuel (some c) cs

/-- `hasWordTokF` with the canonical fuel. -/
def hP (w : List Char) (prev : Option Char) (s : List Char) : Bool :=
  hasWordTokF w s.length prev s

/-- `removeWordF` with the canonical fuel and an arbitrary left context. -/
def rP (w : List Char) (prev : Option Char) (s : List Char) : List Char :=
  removeWordF w s.length prev s

theorem removeWord_eq_rP (w s : List Char) : removeWord w s = rP w none s := rfl

theorem isPrefixOf_length_le :
    ∀ (t l : List Char), t.isPrefixOf l = true → t.length ≤ l.length := by
  intro t
  induction t with
  | nil => intro l _; simp
  | cons a as ih =>
    intro l h
    cases l with
    | nil => simp [List.isPrefixOf] at h
    | cons b bs =>
      simp only [List.isPrefixOf, Bool.and_eq_true] at h
      simpa using ih bs h.2

theorem isPrefixOf_append_drop :
    ∀ (t l : List Char), t.isPrefixOf l = true → l = t ++ l.drop t.length := by
  intro t
  induction t with
  | nil => intro l _; simp
  | cons a as ih =>
    intro l h
    cases l with
    | nil => simp [List.isPrefixOf] at h
    | cons b bs =>
      simp only [List.isPrefixOf, Bool.and_eq_true, beq_iff_eq] at h
      obtain ⟨rfl, h2⟩ := h
      simpa using ih bs h2

theorem getLastD_irrel (l : List Char) (h : l ≠ []) (d1 d2 : Char) :
    l.getLastD d1 = l.getLastD d2 := by
  cases l with
  | nil => exact absurd rfl h
  | cons a as => rw [List.getLastD_cons, List.getLastD_cons]

theorem getLastD_mem (l : List Char) (h : l ≠ []) (d : Char) :
    l.getLastD d ∈ l := by
  induction l generalizing d with
  | nil => exact absurd rfl h
  | cons a as ih =>
    cases has : as with
    | nil => simp [List.getLastD_cons]
    | cons b bs =>
      rw [List.getLastD_cons]
      right
      rw [← has]
      exact ih (by simp [has]) a

theorem boundaryL_some (a : Char) :
    boundaryL (some a) = ! isWordChar a := by
  simp [boundaryL]

theorem removeWordF_fuel (w : List Char) :
    ∀ (fuel : Nat) (s : List Char) (prev : Option Char), s.length ≤ fuel →
    removeWordF w fuel prev s = rP w prev s := by
  intro fuel
  induction fuel using Nat.strong_induction_on with
  | _ fuel ih =>
    match fuel with
    | 0 =>
      intro s prev hs
      have : s = [] := List.length_eq_zero.mp (Nat.le_zero.mp hs)
      subst this
      rfl
    | fuel + 1 =>
      intro s prev hs
      match s with
      | [] => rfl
      | c :: cs =>
        have hs' : cs.length ≤ fuel := by
          simp only [List.length_cons] at hs
          omega
        show removeWordF w (fuel + 1) prev (c :: cs) =
          removeWordF w (cs.length + 1) prev (c :: cs)
        rw [removeWordF, removeWordF]
        split_ifs with hg
        · obtain ⟨hne, -, hpre, -⟩ := hg
          have hwlen : 1 ≤ w.length := by
            cases w with
            | nil => exact absurd rfl hne
            | cons _ _ => simp
          have hdlen : ((c :: cs).drop w.length).length ≤ cs.length := by
            rw [List.length_drop]
            simp only [List.length_cons]
            omega
          rw [ih fuel (by omega) _ _ (by omega)]
          rw [ih cs.length (by omega) _ _ hdlen]
        · have h1 : removeWordF w fuel (some c) cs = rP w (some c) cs :=
            ih fuel (by omega) _ _ (by omega)
          rw [h1]
          rfl

theorem rP_cons (w : List Char) (prev : Option Char) (c : Char)
    (cs : List Char) :
    rP w prev (c :: cs) =
      if w ≠ [] ∧ boundaryL prev ∧ w.isPrefixOf (c :: cs) ∧
          boundaryR ((c :: cs).drop w.length) then
        rP w (some (w.getLastD ' ')) ((c :: cs).drop w.length)
      else c :: rP w (some c) cs := by
  show removeWordF w (cs.length + 1) prev (c :: cs) = _
  rw [removeWordF]
  split_ifs with hg
  · obtain ⟨hne, -, hpre, -⟩ := hg
    have hwlen : 1 ≤ w.length := by
      cases w with
      | nil => exact absurd rfl hne
      | cons _ _ => simp
    exact removeWordF_fuel w cs.length _ _ (by
      rw [List.length_drop]
      simp only [List.length_cons]
      omega)
  · rfl

theorem hP_cons (w : List Char) (prev : Option Char) (c : Char)
    (cs : List Char) :
    hP w prev (c :: cs) =
      if w ≠ [] ∧ boundaryL prev ∧ w.isPrefixOf (c :: cs) ∧
          boundaryR ((c :: cs).drop w.length) then true
      else hP w (some c) cs := rfl

theorem rP_eq_self_of_no_tok (w : List Char) :
    ∀ (s : List Char) (prev : Option Char), hP w prev s = false →
    rP w prev s = s := by
  intro s
  induction s with
  | nil => intro prev _; rfl
  | cons c cs ih =>
    intro prev h
    rw [hP_cons] at h
    rw [rP_cons]
    split_ifs with hg
    · rw [if_pos hg] at h; cases h
    · rw [if_neg hg] at h
      rw [ih (some c) h]

theorem word_prefix_rP (w : List Char) :
    ∀ (v s : List Char) (prev : Option Char),
    (∀ a ∈ v, isWordChar a = true) → boundaryL prev = false →
    v.isPrefixOf (rP w prev s) = v.isPrefixOf s := by
  intro v
  induction v with
  | nil => intro s prev _ _; simp [List.isPrefixOf]
  | cons a v' ih =>
    intro s prev hword hbl
    cases s with
    | nil => rfl
    | cons d ds =>
      rw [rP_cons]
      have hguard : ¬ (w ≠ [] ∧ boundaryL prev ∧ w.isPrefixOf (d :: ds) ∧
          boundaryR ((d :: ds).drop w.length)) := by
        rintro ⟨-, hb, -, -⟩
        rw [hbl] at hb
        cases hb
      rw [if_neg hguard]
      simp only [List.isPrefixOf]
      by_cases had : a = d
      · subst had
        have haw : isWordChar a = true := hword a (List.mem_cons_self _ _)
        have hbla : boundaryL (some a) = false := by
          rw [boundaryL_some, haw]
          rfl
        rw [ih ds (some a) (fun b hb => hword b (List.mem_cons_of_mem _ hb)) hbla]
      · have : (a == d) = false := by simpa using had
        rw [this]
        simp

theorem rP_skip_word_run (w : List Char) :
    ∀ (v s : List Char) (prev : Option Char), v ≠ [] →
    (∀ a ∈ v, isWordChar a = true) → boundaryL prev = false →
    v.isPrefixOf s = true →
    rP w prev s = v ++ rP w (some (v.getLastD ' ')) (s.drop v.length) := by
  intro v
  induction v with
  | nil => intro s prev h; exact absurd rfl h
  | cons a v' ih =>
    intro s prev _ hword hbl hpre
    cases s with
    | nil => simp [List.isPrefixOf] at hpre
    | cons d ds =>
      simp only [List.isPrefixOf, Bool.and_eq_true, beq_iff_eq] at hpre
      obtain ⟨rfl, hpre2⟩ := hpre
      rw [rP_cons]
      have hguard : ¬ (w ≠ [] ∧ boundaryL prev ∧ w.isPrefixOf (a :: ds) ∧
          boundaryR ((a :: ds).drop w.length)) := by
        rintro ⟨-, hb, -, -⟩
        rw [hbl] at hb
        cases hb
      rw [if_neg hguard]
      have haw : isWordChar a = true := hword a (List.mem_cons_self _ _)
      have hbla : boundaryL (some a) = false := by
        rw [boundaryL_some, haw]
        rfl
      cases hv' : v' with
      | nil =>
        simp only [List.getLastD_cons, List.getLastD]
        simp
      | cons b bs =>
        rw [← hv']
        have hv'ne : v' ≠ [] := by simp [hv']
        rw [ih ds (some a) hv'ne
          (fun x hx => hword x (List.mem_cons_of_mem _ hx)) hbla hpre2]
        rw [List.getLastD_cons]
        rw [getLastD_irrel v' hv'ne a ' ']
        simp [List.length_cons]

theorem guard_out_false (w : List Char) (v : List Char) (c : Char)
    (cs : List Char) (hvw : ∀ a ∈ v, isWordChar a = true)
    (hin : ¬ (v.isPrefixOf (c :: cs) = true ∧
      boundaryR ((c :: cs).drop v.length) = true)) :
    ¬ (v.isPrefixOf (c :: rP w (some c) cs) = true ∧
      boundaryR ((c :: rP w (some c) cs).drop v.length) = true) := by
  rintro ⟨hpre, hbr⟩
  cases v with
  | nil =>
    refine hin ⟨by simp [List.isPrefixOf], ?_⟩
    simpa using hbr
  | cons a v' =>
    simp only [List.isPrefixOf, Bool.and_eq_true, beq_iff_eq] at hpre
    obtain ⟨rfl, hpre'⟩ := hpre
    have hcw : isWordChar a = true := hvw a (List.mem_cons_self _ _)
    have hblc : boundaryL (some a) = false := by
      rw [boundaryL_some, hcw]
      rfl
    have hpre_in : v'.isPrefixOf cs = true := by
      rw [← word_prefix_rP w v' cs (some a)
        (fun x hx => hvw x (List.mem_cons_of_mem _ hx)) hblc]
      exact hpre'
    have hvin : (a :: v').isPrefixOf (a :: cs) = true := by
      simp [List.isPrefixOf, hpre_in]
    have hbr_in : boundaryR (cs.drop v'.length) = false := by
      rcases Bool.eq_false_or_eq_true (boundaryR ((a :: cs).drop
        (a :: v').length)) with hb | hb
      · exact absurd ⟨hvin, hb⟩ hin
      · simpa using hb
    obtain ⟨ε, rest, hdeq, hεw⟩ :
        ∃ ε rest, cs.drop v'.length = ε :: rest ∧ isWordChar ε = true := by
      cases hd : cs.drop v'.length with
      | nil => rw [hd] at hbr_in; simp [boundaryR] at hbr_in
      | cons ε rest =>
        rw [hd] at hbr_in
        refine ⟨ε, rest, rfl, ?_⟩
        simpa [boundaryR] using hbr_in
    have hbr' : boundaryR ((rP w (some a) cs).drop v'.length) = true := by
      simpa using hbr
    cases hv' : v' with
    | nil =>
      subst hv'
      simp only [List.length_nil, List.drop_zero] at hdeq hbr'
      rw [hdeq] at hbr'
      rw [rP_cons] at hbr'
      rw [if_neg (by
        rintro ⟨-, hb, -, -⟩
        rw [hblc] at hb
        cases hb)] at hbr'
      simp [boundaryR, hεw] at hbr'
    | cons b bs =>
      have hv'ne : v' ≠ [] := by simp [hv']
      have hskip := rP_skip_word_run w v' cs (some a) hv'ne
        (fun x hx => hvw x (List.mem_cons_of_mem _ hx)) hblc hpre_in
      rw [hskip, List.drop_left'] at hbr'
      · have hlw : isWordChar (v'.getLastD ' ') = true :=
          hvw _ (List.mem_cons_of_mem _ (getLastD_mem v' hv'ne ' '))
        rw [hdeq] at hbr'
        rw [rP_cons] at hbr'
        rw [if_neg (by
          rintro ⟨-, hb, -, -⟩
          rw [boundaryL_some, hlw] at hb
          cases hb)] at hbr'
        simp [boundaryR, hεw] at hbr'
      · rfl

theorem if_eq_false_parts {c : Prop} [Decidable c] {b : Bool}
    (h : (if c then true else b) = false) : ¬ c ∧ b = false := by
  by_cases hc : c
  · rw [if_pos hc] at h; cases h
  · rw [if_neg hc] at h; exact ⟨hc, h⟩

theorem hP_mono_prev (v r : List Char) (p q : Option Char)
    (hp : boundaryL p = false) (h : hP v q r = false) : hP v p r = false := by
  cases r with
  | nil => rfl
  | cons c cs =>
    rw [hP_cons] at h ⊢
    have h2 := (if_eq_false_parts h).2
    rw [if_neg (by
      rintro ⟨-, hb, -, -⟩
      rw [hp] at hb
      cases hb)]
    exact h2

theorem hP_desc (v : List Char) :
    ∀ (a r : List Char) (prev p' : Option Char),
    hP v prev (a ++ r) = false → boundaryL p' = false → hP v p' r = false := by
  intro a
  induction a with
  | nil => intro r prev p' h hp; exact hP_mono_prev v r p' prev hp h
  | cons a0 a' ih =>
    intro r prev p' h hp
    rw [List.cons_append, hP_cons] at h
    exact ih r (some a0) p' (if_eq_false_parts h).2 hp

/-- Relation between the original-string context `prev` and the
output-string context `pOut` maintained by the removal scan: either the two
contexts agree on the word-boundary test, or the original context is a word
character and the rest of the input starts at a right boundary (the state
just after a removal). -/
def InvCtx (prev pOut : Option Char) (s : List Char) : Prop :=
  boundaryL pOut = boundaryL prev ∨
    (boundaryL prev = false ∧ boundaryR s = true)

theorem hP_rP_self (w : List Char) (hw : ∀ a ∈ w, isWordChar a = true) :
    ∀ (n : Nat) (s : List Char), s.length ≤ n →
    ∀ (prev pOut : Option Char), InvCtx prev pOut s →
    hP w pOut (rP w prev s) = false := by
  intro n
  induction n with
  | zero =>
    intro s hs prev pOut _
    have h0 : s = [] := List.length_eq_zero.mp (Nat.le_zero.mp hs)
    subst h0
    rfl
  | succ n ihn =>
    intro s hs prev pOut hinv
    cases s with
    | nil => rfl
    | cons c cs =>
      rw [rP_cons]
      split_ifs with hg
      · obtain ⟨hne, hbl, hpre, hbr⟩ := hg
        apply ihn
        · have hlen := isPrefixOf_length_le w (c :: cs) hpre
          have hw1 : 1 ≤ w.length := by
            cases w with
            | nil => exact absurd rfl hne
            | cons _ _ => simp
          rw [List.length_drop]
          simp only [List.length_cons] at hs ⊢
          omega
        · right
          refine ⟨?_, hbr⟩
          rw [boundaryL_some, hw _ (getLastD_mem w hne ' ')]
          rfl
      · rw [hP_cons]
        have hrec : hP w (some c) (rP w (some c) cs) = false := by
          apply ihn cs (by simp only [List.length_cons] at hs; omega)
          exact Or.inl rfl
        split_ifs with hgo
        · exfalso
          obtain ⟨hne, hblo, hpre, hbr⟩ := hgo
          rcases hinv with hal | ⟨hprevF, hbrS⟩
          · have hblp : boundaryL prev = true := by rw [← hal]; exact hblo
            have hother : ¬ (w.isPrefixOf (c :: cs) = true ∧
                boundaryR ((c :: cs).drop w.length) = true) := by
              rintro ⟨h1, h2⟩
              exact hg ⟨hne, hblp, h1, h2⟩
            exact guard_out_false w w c cs hw hother ⟨hpre, hbr⟩
          · have hcnw : isWordChar c = false := by
              simpa [boundaryR] using hbrS
            cases w with
            | nil => exact hne rfl
            | cons w0 ws =>
              simp only [List.isPrefixOf, Bool.and_eq_true, beq_iff_eq] at hpre
              obtain ⟨rfl, -⟩ := hpre
              have hcw := hw w0 (List.mem_cons_self _ _)
              rw [hcnw] at hcw
              cases hcw
        · exact hrec

theorem hP_rP_other (w v : List Char) (hv : ∀ a ∈ v, isWordChar a = true)
    (hw : ∀ a ∈ w, isWordChar a = true) :
    ∀ (n : Nat) (s : List Char), s.length ≤ n →
    ∀ (prev pOut : Option Char), InvCtx prev pOut s →
    hP v prev s = false → hP v pOut (rP w prev s) = false := by
  intro n
  induction n with
  | zero =>
    intro s hs prev pOut _ _
    have h0 : s = [] := List.length_eq_zero.mp (Nat.le_zero.mp hs)
    subst h0
    rfl
  | succ n ihn =>
    intro s hs prev pOut hinv hno
    cases s with
    | nil => rfl
    | cons c cs =>
      rw [rP_cons]
      split_ifs with hg
      · obtain ⟨hne, hbl, hpre, hbr⟩ := hg
        have hblt : boundaryL (some (w.getLastD ' ')) = false := by
          rw [boundaryL_some, hw _ (getLastD_mem w hne ' ')]
          rfl
        apply ihn
        · have hlen := isPrefixOf_length_le w (c :: cs) hpre
          have hw1 : 1 ≤ w.length := by
            cases w with
            | nil => exact absurd rfl hne
            | cons _ _ => simp
          rw [List.length_drop]
          simp only [List.length_cons] at hs ⊢
          omega
        · exact Or.inr ⟨hblt, hbr⟩
        · have hdec := isPrefixOf_append_drop w (c :: cs) hpre
          rw [hdec] at hno
          exact hP_desc v w ((c :: cs).drop w.length) prev _ hno hblt
      · rw [hP_cons] at hno
        obtain ⟨hgin, hno2⟩ := if_eq_false_parts hno
        rw [hP_cons]
        have hrec : hP v (some c) (rP w (some c) cs) = false :=
          ihn cs (by simp only [List.length_cons] at hs; omega) (some c)
            (some c) (Or.inl rfl) hno2
        split_ifs with hgo
        · exfalso
          obtain ⟨hvne, hblo, hpre, hbr⟩ := hgo
          rcases hinv with hal | ⟨hprevF, hbrS⟩
          · have hblp : boundaryL prev = true := by rw [← hal]; exact hblo
            have hother : ¬ (v.isPrefixOf (c :: cs) = true ∧
                boundaryR ((c :: cs).drop v.length) = true) := by
              rintro ⟨h1, h2⟩
              exact hgin ⟨hvne, hblp, h1, h2⟩
            exact guard_out_false w v c cs hv hother ⟨hpre, hbr⟩
          · have hcnw : isWordChar c = false := by
              simpa [boundaryR] using hbrS
            cases v with
            | nil => exact hvne rfl
            | cons v0 vs =>
              simp only [List.isPrefixOf, Bool.and_eq_true, beq_iff_eq] at hpre
              obtain ⟨rfl, -⟩ := hpre
              have hcw := hv v0 (List.mem_cons_self _ _)
              rw [hcnw] at hcw
              cases hcw
        · exact hrec

theorem mem_of_mem_drop' {α : Type} {x : α} {l : List α} {k : Nat}
    (h : x ∈ l.drop k) : x ∈ l := by
  have hta := List.take_append_drop k l
  rw [← hta]
  exact List.mem_append_right _ h

theorem dropWhile_eq_self_of_false (p : Char → Bool) (l : List Char)
    (h : ∀ c ∈ l, p c = false) : l.dropWhile p = l := by
  cases l with
  | nil => rfl
  | cons c cs =>
    rw [List.dropWhile_cons, h c (List.mem_cons_self _ _)]
    simp

theorem length_dropWhile_le' (p : Char → Bool) (l : List Char) :
    (l.dropWhile p).length ≤ l.length := by
  induction l with
  | nil => simp
  | cons c cs ih =>
    rw [List.dropWhile_cons]
    split_ifs
    · exact le_trans ih (by simp)
    · simp

theorem subWsF_fuel (tok : List Char) :
    ∀ (fuel : Nat) (s : List Char), s.length ≤ fuel →
    subWsF tok fuel s = subWs tok s := by
  intro fuel
  induction fuel using Nat.strong_induction_on with
  | _ fuel ih =>
    match fuel with
    | 0 =>
      intro s hs
      have h0 : s = [] := List.length_eq_zero.mp (Nat.le_zero.mp hs)
      subst h0
      rfl
    | fuel + 1 =>
      intro s hs
      match s with
      | [] => rfl
      | c :: cs =>
        have hs' : cs.length ≤ fuel := by
          simp only [List.length_cons] at hs
          omega
        show subWsF tok (fuel + 1) (c :: cs) =
          subWsF tok (cs.length + 1) (c :: cs)
        rw [subWsF, subWsF]
        split_ifs with hg
        · obtain ⟨hne, hpre⟩ := hg
          have h1 : ((c :: cs).dropWhile isWs).length ≤ (c :: cs).length :=
            length_dropWhile_le' _ _
          have h2 := isPrefixOf_length_le tok _ hpre
          have h3 : 1 ≤ tok.length := by
            cases tok with
            | nil => exact absurd rfl hne
            | cons _ _ => simp
          have h4 : ((((c :: cs).dropWhile isWs).drop
              tok.length).dropWhile isWs).length ≤
              (((c :: cs).dropWhile isWs).drop tok.length).length :=
            length_dropWhile_le' _ _
          rw [List.length_drop] at h4
          have hrest : ((((c :: cs).dropWhile isWs).drop
              tok.length).dropWhile isWs).length ≤ cs.length := by
            simp only [List.length_cons] at h1
            omega
          rw [ih fuel (by omega) _ (by omega)]
          rw [ih cs.length (by omega) _ hrest]
        · rw [ih fuel (by omega) cs hs']
          rfl

theorem subWs_cons (tok : List Char) (c : Char) (cs : List Char) :
    subWs tok (c :: cs) =
      if tok ≠ [] ∧ tok.isPrefixOf ((c :: cs).dropWhile isWs) then
        tok ++ subWs tok
          ((((c :: cs).dropWhile isWs).drop tok.length).dropWhile isWs)
      else c :: subWs tok cs := by
  show subWsF tok (cs.length + 1) (c :: cs) = _
  rw [subWsF]
  split_ifs with hg
  · obtain ⟨hne, hpre⟩ := hg
    congr 1
    have h1 : ((c :: cs).dropWhile isWs).length ≤ (c :: cs).length :=
      length_dropWhile_le' _ _
    have h2 := isPrefixOf_length_le tok _ hpre
    have h3 : 1 ≤ tok.length := by
      cases tok with
      | nil => exact absurd rfl hne
      | cons _ _ => simp
    have h4 : ((((c :: cs).dropWhile isWs).drop
        tok.length).dropWhile isWs).length ≤
        (((c :: cs).dropWhile isWs).drop tok.length).length :=
      length_dropWhile_le' _ _
    rw [List.length_drop] at h4
    apply subWsF_fuel
    simp only [List.length_cons] at h1
    omega
  · rfl

theorem subWs_eq_self_of_wsfree (tok : List Char) :
    ∀ (n : Nat) (s : List Char), s.length ≤ n →
    (∀ c ∈ s, isWs c = false) → subWs tok s = s := by
  intro n
  induction n with
  | zero =>
    intro s hs _
    have h0 : s = [] := List.length_eq_zero.mp (Nat.le_zero.mp hs)
    subst h0
    rfl
  | succ n ihn =>
    intro s hs hws
    cases s with
    | nil => rfl
    | cons c cs =>
      have hdw : (c :: cs).dropWhile isWs = c :: cs :=
        dropWhile_eq_self_of_false _ _ hws
      rw [subWs_cons]
      split_ifs with hg
      · obtain ⟨hne, hpre⟩ := hg
        rw [hdw] at hpre
        have hsub : ∀ x ∈ (c :: cs).drop tok.length, isWs x = false :=
          fun x hx => hws x (mem_of_mem_drop' hx)
        have hdw2 : ((c :: cs).drop tok.length).dropWhile isWs =
            (c :: cs).drop tok.length :=
          dropWhile_eq_self_of_false _ _ hsub
        rw [hdw, hdw2]
        have h3 : 1 ≤ tok.length := by
          cases tok with
          | nil => exact absurd rfl hne
          | cons _ _ => simp
        have hlen : ((c :: cs).drop tok.length).length ≤ n := by
          rw [List.length_drop]
          simp only [List.length_cons] at hs ⊢
          omega
        rw [ihn _ hlen hsub]
        exact (isPrefixOf_append_drop tok (c :: cs) hpre).symm
      · rw [ihn cs (by simp only [List.length_cons] at hs; omega)
          (fun x hx => hws x (List.mem_cons_of_mem _ hx))]

theorem pyStrip_eq_self_of_wsfree (s : List Char)
    (h : ∀ c ∈ s, isWs c = false) : pyStrip s = s := by
  rw [pyStrip]
  rw [dropWhile_eq_self_of_false _ _ h]
  rw [dropWhile_eq_self_of_false _ _ (fun c hc => h c (List.mem_reverse.mp hc))]
  exact List.reverse_reverse s

theorem rP_wsfree (w : List Char) :
    ∀ (n : Nat) (s : List Char), s.length ≤ n → ∀ (prev : Option Char),
    (∀ c ∈ s, isWs c = false) → ∀ c ∈ rP w prev s, isWs c = false := by
  intro n
  induction n with
  | zero =>
    intro s hs prev _
    have h0 : s = [] := List.length_eq_zero.mp (Nat.le_zero.mp hs)
    subst h0
    intro c hc
    cases hc
  | succ n ihn =>
    intro s hs prev hws
    cases s with
    | nil => intro c hc; cases hc
    | cons c cs =>
      rw [rP_cons]
      split_ifs with hg
      · obtain ⟨hne, -, hpre, -⟩ := hg
        have h3 : 1 ≤ w.length := by
          cases w with
          | nil => exact absurd rfl hne
          | cons _ _ => simp
        apply ihn
        · rw [List.length_drop]
          simp only [List.length_cons] at hs ⊢
          omega
        · exact fun x hx => hws x (mem_of_mem_drop' hx)
      · intro x hx
        rcases List.mem_cons.mp hx with rfl | hx'
        · exact hws x (List.mem_cons_self _ _)
        · exact ihn cs (by simp only [List.length_cons] at hs; omega)
            (some c) (fun z hz => hws z (List.mem_cons_of_mem _ hz)) x hx'

/-- C6 as stated is false: normalisation is not idempotent.  Removing a
`const` token leaves its surrounding whitespace behind, and a second pass
then collapses that whitespace against a parenthesis:
`normalize("f( const x)") = "f( x)"` but
`normalize("f( x)") = "f(x)"`. -/
theorem C6_counterexample :
    normalizeSignature (normalizeSignature "f( const x)") ≠
      normalizeSignature "f( const x)" := by decide

/-- **C6 amended**: normalisation is idempotent on every input containing no
whitespace character.  (On inputs with whitespace it can fail in two ways:
`const`/`volatile` removal leaves a whitespace residue that the next pass
collapses — see the counterexample — and the leftmost-greedy
`\s*::\s*`-collapse itself can cascade, e.g. `"a : ::" ↦ "a :::" ↦
"a:::"`.)  For whitespace-free input the four collapse passes and the final
`strip` are the identity, and the `const`/`volatile` removal passes are
stable: a removal pass leaves no boundary-delimited occurrence of its own
word and cannot create one of the other word, so the second application
changes nothing. -/
theorem C6_normalize_idempotent_on_wsfree (s : String)
    (hws : ∀ c ∈ s.data, isWs c = false) :
    normalizeSignature (normalizeSignature s) = normalizeSignature s := by
  have hcw : ∀ a ∈ "const".data, isWordChar a = true := by decide
  have hvw : ∀ a ∈ "volatile".data, isWordChar a = true := by decide
  have h1 : subWs "::".data s.data = s.data :=
    subWs_eq_self_of_wsfree _ s.data.length s.data le_rfl hws
  have h2 : subWs "(".data s.data = s.data :=
    subWs_eq_self_of_wsfree _ s.data.length s.data le_rfl hws
  have h3 : subWs ")".data s.data = s.data :=
    subWs_eq_self_of_wsfree _ s.data.length s.data le_rfl hws
  have h4 : subWs ",".data s.data = s.data :=
    subWs_eq_self_of_wsfree _ s.data.length s.data le_rfl hws
  have hzw : ∀ c ∈ rP "const".data none s.data, isWs c = false :=
    rP_wsfree _ s.data.length s.data le_rfl none hws
  have hyw : ∀ c ∈ rP "volatile".data none (rP "const".data none s.data),
      isWs c = false :=
    rP_wsfree _ _ _ le_rfl none hzw
  have hstrip : pyStrip (rP "volatile".data none (rP "const".data none s.data)) =
      rP "volatile".data none (rP "const".data none s.data) :=
    pyStrip_eq_self_of_wsfree _ hyw
  have e1 : normalizeSignature s =
      ⟨pyStrip (removeWord "volatile".data (removeWord "const".data
        (subWs ",".data (subWs ")".data (subWs "(".data
          (subWs "::".data s.data))))))⟩ := rfl
  have hnorm1 : normalizeSignature s =
      ⟨rP "volatile".data none (rP "const".data none s.data)⟩ := by
    rw [e1, h1, h2, h3, h4, removeWord_eq_rP, removeWord_eq_rP, hstrip]
  rw [hnorm1]
  have g1 : subWs "::".data (rP "volatile".data none
      (rP "const".data none s.data)) = _ :=
    subWs_eq_self_of_wsfree "::".data _ _ le_rfl hyw
  have g2 : subWs "(".data (rP "volatile".data none
      (rP "const".data none s.data)) = _ :=
    subWs_eq_self_of_wsfree "(".data _ _ le_rfl hyw
  have g3 : subWs ")".data (rP "volatile".data none
      (rP "const".data none s.data)) = _ :=
    subWs_eq_self_of_wsfree ")".data _ _ le_rfl hyw
  have g4 : subWs ",".data (rP "volatile".data none
      (rP "const".data none s.data)) = _ :=
    subWs_eq_self_of_wsfree ",".data _ _ le_rfl hyw
  have hAy : hP "const".data none (rP "const".data none s.data) = false :=
    hP_rP_self "const".data hcw s.data.length s.data le_rfl none none
      (Or.inl rfl)
  have hBy : hP "const".data none (rP "volatile".data none
      (rP "const".data none s.data)) = false :=
    hP_rP_other "volatile".data "const".data hcw hvw _ _ le_rfl none none
      (Or.inl rfl) hAy
  have hCy : rP "const".data none (rP "volatile".data none
      (rP "const".data none s.data)) = _ :=
    rP_eq_self_of_no_tok "const".data _ none hBy
  have hVy : hP "volatile".data none (rP "volatile".data none
      (rP "const".data none s.data)) = false :=
    hP_rP_self "volatile".data hvw _ _ le_rfl none none (Or.inl rfl)
  have hVy2 : rP "volatile".data none (rP "volatile".data none
      (rP "const".data none s.data)) = _ :=
    rP_eq_self_of_no_tok "volatile".data _ none hVy
  have e2 : normalizeSignature
      (⟨rP "volatile".data none (rP "const".data none s.data)⟩ : String) =
      ⟨pyStrip (removeWord "volatile".data (removeWord "const".data
        (subWs ",".data (subWs ")".data (subWs "(".data
          (subWs "::".data (rP "volatile".data none
            (rP "const".data none s.data))))))))⟩ := rfl
  rw [e2, g1, g2, g3, g4, removeWord_eq_rP, removeWord_eq_rP, hCy, hVy2,
    hstrip]

/-- Witness for the amended C6 at a concrete whitespace-free input. -/
theorem C6_witness :
    (∀ c ∈ "f(int)".data, isWs c = false) ∧
    normalizeSignature (normalizeSignature "f(int)") =
      normalizeSignature "f(int)" :=
  ⟨by decide, C6_normalize_idempotent_on_wsfree "f(int)" (by decide)⟩
